import Mathlib

/-!
Verification of the MultiADSweep orchestration and reconciliation engine.

The Python sources (MultiADSweep/simulation.py, logging.py, utilities.py) are
shallowly embedded below: file contents are lists of characters, byte strings
are lists of naturals, pandas index structures are lists of named tuples, and
Python exceptions are modelled with Except.  Each definition mirrors one
function or code region of the sources; the theorems at the end of the file
settle the specification claims against these definitions.
-/

namespace MAS

/-- Scalar values that can appear in a sweep specification or an index tuple:
numbers, strings, the missing-value marker (None/NaN), and - because Python is
dynamically typed - tuples nested as values. -/
inductive Val where
  | i (n : Int)
  | q (x : Rat)
  | s (t : String)
  | null
  | tup (ts : List Val)

mutual

def Val.beq : Val → Val → Bool
  | .i a, .i b => a == b
  | .q a, .q b => a == b
  | .s a, .s b => a == b
  | .null, .null => true
  | .tup a, .tup b => Val.beqList a b
  | _, _ => false

def Val.beqList : List Val → List Val → Bool
  | [], [] => true
  | x :: xs, y :: ys => Val.beq x y && Val.beqList xs ys
  | _, _ => false

end

mutual

theorem Val.beq_iff : ∀ a b : Val, Val.beq a b = true ↔ a = b
  | .i a, .i b => by simp [Val.beq]
  | .q a, .q b => by simp [Val.beq]
  | .s a, .s b => by simp [Val.beq]
  | .null, .null => by simp [Val.beq]
  | .tup a, .tup b => by simp [Val.beq, Val.beqList_iff a b]
  | .i a, .q b | .i a, .s b | .i a, .null | .i a, .tup b => by simp [Val.beq]
  | .q a, .i b | .q a, .s b | .q a, .null | .q a, .tup b => by simp [Val.beq]
  | .s a, .i b | .s a, .q b | .s a, .null | .s a, .tup b => by simp [Val.beq]
  | .null, .i b | .null, .q b | .null, .s b | .null, .tup b => by simp [Val.beq]
  | .tup a, .i b | .tup a, .q b | .tup a, .s b | .tup a, .null => by simp [Val.beq]

theorem Val.beqList_iff : ∀ a b : List Val, Val.beqList a b = true ↔ a = b
  | [], [] => by simp [Val.beqList]
  | x :: xs, y :: ys => by
    simp [Val.beqList, Val.beq_iff x y, Val.beqList_iff xs ys]
  | [], y :: ys => by simp [Val.beqList]
  | x :: xs, [] => by simp [Val.beqList]

end

instance : DecidableEq Val := fun a b => decidable_of_iff _ (Val.beq_iff a b)

/-- Python exception classes raised by the code paths under study. -/
inductive PyErr where
  | valueError
  | typeError
  | indexError
deriving DecidableEq, Repr

/-! ## Netlist patching (utilities.modify_netlist) -/

/-- Prepend a character to the first line of a line list (starting a new
line when there is none). -/
def consFirst (c : Char) : List (List Char) → List (List Char)
  | [] => [[c]]
  | l :: ls => (c :: l) :: ls

/-- Python file.readlines: split a character stream after every newline,
keeping the newline at the end of each line; a trailing fragment without a
newline is its own final line; an empty file has no lines. -/
def pyReadlines : List Char → List (List Char)
  | [] => []
  | c :: t =>
    if c = '\n' then ['\n'] :: pyReadlines t
    else consFirst c (pyReadlines t)

/-- The seven characters of the "global " marker recognised at line start. -/
def glbStr : List Char := ['g', 'l', 'o', 'b', 'a', 'l', ' ']

/-- The two line-start patterns modify_netlist matches for a variable name:
plain (f = true) is name=, global (f = false) is global name=. -/
def varPat (n : List Char) (f : Bool) : List Char :=
  if f then n ++ ['='] else glbStr ++ n ++ ['=']

/-- The full replacement line written for a matched variable: pattern, value,
newline (the code writes an f-string ending in a hard newline). -/
def varLine (nv : List Char × List Char) (f : Bool) : List Char :=
  varPat nv.1 f ++ nv.2 ++ ['\n']

/-- One iteration of the inner loop of modify_netlist: if the line starts with
name= rewrite it to name=value, else if it starts with global name= rewrite it
to global name=value, else keep the line. -/
def patchLine (nv : List Char × List Char) (l : List Char) : List Char :=
  if varPat nv.1 true <+: l then varLine nv true
  else if varPat nv.1 false <+: l then varLine nv false
  else l

/-- The inner for-loop of modify_netlist over the vars_dict items, applied to
one line. -/
def processLine (vars : List (List Char × List Char)) (l : List Char) : List Char :=
  vars.foldl (fun acc nv => patchLine nv acc) l

/-- The state of a line on which the variable nv is about to fire with form
f: the pattern of that form is present, and for the global form the plain
pattern (checked first by the code) is absent. -/
def Fireable (nv : List Char × List Char) (f : Bool) (w : List Char) : Prop :=
  varPat nv.1 f <+: w ∧ (f = false → ¬ varPat nv.1 true <+: w)

/-- utilities.modify_netlist as a pure content transformer: read the lines,
rewrite each line through every dictionary item in order, and write the
modified lines back (writelines concatenates them). -/
def modify_netlist (vars : List (List Char × List Char)) (content : List Char) : List Char :=
  ((pyReadlines content).map (processLine vars)).flatten

/-- A newline-terminated line with no interior newline. -/
def TermLine (l : List Char) : Prop :=
  ∃ m, '\n' ∉ m ∧ l = m ++ ['\n']

/-- A line whose newline, if any, is only at the very end: the shape of every
string produced by readlines and of every rewritten line. -/
def AlmostLine (l : List Char) : Prop :=
  ('\n' ∉ l) ∨ TermLine l

/-- The shape invariant of a readlines result: every line but the last is
newline-terminated with no interior newline, and the last is either that or a
nonempty newline-free fragment. -/
def ProperLines : List (List Char) → Prop
  | [] => True
  | [l] => TermLine l ∨ ('\n' ∉ l ∧ l ≠ [])
  | l :: l' :: ls => TermLine l ∧ ProperLines (l' :: ls)

/-! ## Robust byte decoding (utilities.robust_byte_decode) -/

/-- Result of examining the head of a byte stream with the strict UTF-8
decoder: end of input, one decoded code point with the remaining bytes, or a
decode error giving the faulty byte range (CPython's e.start..e.end) and the
remaining bytes. -/
inductive Utf8Step where
  | done
  | char (cp : Nat) (rest : List Nat)
  | err (bad : List Nat) (rest : List Nat)
deriving DecidableEq, Repr

/-- Number of bytes of the UTF-8 sequence announced by a lead byte; zero for
bytes that can never start a sequence (stray continuations 80..BF, the
overlong leads C0/C1, and F5..FF). -/
def seqLen (b : Nat) : Nat :=
  if b < 0x80 then 1
  else if b < 0xC2 then 0
  else if b < 0xE0 then 2
  else if b < 0xF0 then 3
  else if b < 0xF5 then 4
  else 0

/-- Admissible range of the first continuation byte after lead b: E0 and F0
exclude overlong encodings, ED excludes surrogates, F4 caps at U+10FFFF. -/
def contOK1 (b c : Nat) : Bool :=
  decide ((if b = 0xE0 then 0xA0 else if b = 0xF0 then 0x90 else 0x80) ≤ c ∧
    c < (if b = 0xED then 0xA0 else if b = 0xF4 then 0x90 else 0xC0))

/-- An ordinary continuation byte. -/
def contOK (c : Nat) : Bool := decide (0x80 ≤ c ∧ c < 0xC0)

/-- Code point assembled from a 2-byte sequence. -/
def cp2 (b c : Nat) : Nat := (b - 0xC0) * 64 + (c - 0x80)

/-- Code point assembled from a 3-byte sequence. -/
def cp3 (b c d : Nat) : Nat := (b - 0xE0) * 4096 + (c - 0x80) * 64 + (d - 0x80)

/-- Code point assembled from a 4-byte sequence. -/
def cp4 (b c d e : Nat) : Nat :=
  (b - 0xF0) * 262144 + (c - 0x80) * 4096 + (d - 0x80) * 64 + (e - 0x80)

/-- Decoder state after lead byte b, two valid continuations c d, expecting a
third continuation (4-byte sequences). -/
def utf8Cont3 (b c d : Nat) (t3 : List Nat) : Utf8Step :=
  match t3 with
  | [] => .err [b, c, d] []
  | e :: t4 =>
    if contOK e then .char (cp4 b c d e) t4 else .err [b, c, d] (e :: t4)

/-- Decoder state after lead byte b and one valid continuation c. -/
def utf8Cont2 (b c : Nat) (t2 : List Nat) : Utf8Step :=
  match t2 with
  | [] => .err [b, c] []
  | d :: t3 =>
    if contOK d then
      (if seqLen b = 3 then .char (cp3 b c d) t3 else utf8Cont3 b c d t3)
    else .err [b, c] (d :: t3)

/-- Decoder state after a multi-byte lead b, expecting the first
continuation. -/
def utf8Cont1 (b : Nat) (t : List Nat) : Utf8Step :=
  match t with
  | [] => .err [b] []
  | c :: t2 =>
    if contOK1 b c then
      (if seqLen b = 2 then .char (cp2 b c) t2 else utf8Cont2 b c t2)
    else .err [b] (c :: t2)

/-- One step of CPython's strict UTF-8 decoder, including its error ranges:
an invalid start byte is faulty alone; a multi-byte sequence cut short or
broken at its k-th continuation is faulty through byte k-1 only. -/
def utf8Step (bs : List Nat) : Utf8Step :=
  match bs with
  | [] => .done
  | b :: t =>
    if b < 0x80 then .char b t
    else if seqLen b = 0 then .err [b] t
    else utf8Cont1 b t

theorem utf8Cont3_char_length {b c d cp : Nat} {t3 r : List Nat}
    (h : utf8Cont3 b c d t3 = .char cp r) : r.length < t3.length := by
  cases t3 with
  | nil => simp [utf8Cont3] at h
  | cons e t4 =>
    by_cases hc : contOK e = true
    · simp [utf8Cont3, hc] at h
      obtain ⟨-, h2⟩ := h
      subst h2; simp
    · simp [utf8Cont3, hc] at h

theorem utf8Cont2_char_length {b c cp : Nat} {t2 r : List Nat}
    (h : utf8Cont2 b c t2 = .char cp r) : r.length < t2.length := by
  cases t2 with
  | nil => simp [utf8Cont2] at h
  | cons d t3 =>
    by_cases hc : contOK d = true
    · by_cases hs : seqLen b = 3
      · simp [utf8Cont2, hc, hs] at h
        obtain ⟨-, h2⟩ := h
        subst h2; simp
      · simp [utf8Cont2, hc, hs] at h
        have := utf8Cont3_char_length h
        simp; omega
    · simp [utf8Cont2, hc] at h

theorem utf8Cont1_char_length {b cp : Nat} {t r : List Nat}
    (h : utf8Cont1 b t = .char cp r) : r.length < t.length := by
  cases t with
  | nil => simp [utf8Cont1] at h
  | cons c t2 =>
    by_cases hc : contOK1 b c = true
    · by_cases hs : seqLen b = 2
      · simp [utf8Cont1, hc, hs] at h
        obtain ⟨-, h2⟩ := h
        subst h2; simp
      · simp [utf8Cont1, hc, hs] at h
        have := utf8Cont2_char_length h
        simp; omega
    · simp [utf8Cont1, hc] at h

theorem utf8Step_char_length {cp : Nat} {bs r : List Nat}
    (h : utf8Step bs = .char cp r) : r.length < bs.length := by
  cases bs with
  | nil => simp [utf8Step] at h
  | cons b t =>
    by_cases hb : b < 0x80
    · simp [utf8Step, hb] at h
      obtain ⟨-, h2⟩ := h
      subst h2; simp
    · by_cases hz : seqLen b = 0
      · simp [utf8Step, hb, hz] at h
      · simp [utf8Step, hb, hz] at h
        have := utf8Cont1_char_length h
        simp; omega

theorem utf8Cont3_err_length {b c d : Nat} {t3 bad r : List Nat}
    (h : utf8Cont3 b c d t3 = .err bad r) : r.length ≤ t3.length := by
  cases t3 with
  | nil =>
    simp [utf8Cont3] at h
    simp [h.2]
  | cons e t4 =>
    by_cases hc : contOK e = true
    · simp [utf8Cont3, hc] at h
    · simp [utf8Cont3, hc] at h
      simp [h.2]

theorem utf8Cont2_err_length {b c : Nat} {t2 bad r : List Nat}
    (h : utf8Cont2 b c t2 = .err bad r) : r.length ≤ t2.length := by
  cases t2 with
  | nil =>
    simp [utf8Cont2] at h
    simp [h.2]
  | cons d t3 =>
    by_cases hc : contOK d = true
    · by_cases hs : seqLen b = 3
      · simp [utf8Cont2, hc, hs] at h
      · simp [utf8Cont2, hc, hs] at h
        have := utf8Cont3_err_length h
        simp; omega
    · simp [utf8Cont2, hc] at h
      simp [h.2]

theorem utf8Cont1_err_length {b : Nat} {t bad r : List Nat}
    (h : utf8Cont1 b t = .err bad r) : r.length ≤ t.length := by
  cases t with
  | nil =>
    simp [utf8Cont1] at h
    simp [h.2]
  | cons c t2 =>
    by_cases hc : contOK1 b c = true
    · by_cases hs : seqLen b = 2
      · simp [utf8Cont1, hc, hs] at h
      · simp [utf8Cont1, hc, hs] at h
        have := utf8Cont2_err_length h
        simp; omega
    · simp [utf8Cont1, hc] at h
      simp [h.2]

theorem utf8Step_err_length {bs bad r : List Nat}
    (h : utf8Step bs = .err bad r) : r.length < bs.length := by
  cases bs with
  | nil => simp [utf8Step] at h
  | cons b t =>
    by_cases hb : b < 0x80
    · simp [utf8Step, hb] at h
    · by_cases hz : seqLen b = 0
      · simp [utf8Step, hb, hz] at h
        simp [h.2]
      · simp [utf8Step, hb, hz] at h
        have := utf8Cont1_err_length h
        simp; omega

/-- Python bytes.decode with strict errors, as the code observes it inside its
try/except: the successfully decoded code points before any error, and, when a
UnicodeDecodeError occurs, the faulty byte slice together with the bytes after
it. -/
def pyDecodeParts (bs : List Nat) : List Nat × Option (List Nat × List Nat) :=
  match h : utf8Step bs with
  | .done => ([], none)
  | .char cp rest =>
    let p := pyDecodeParts rest
    (cp :: p.1, p.2)
  | .err bad rest => ([], some (bad, rest))
termination_by bs.length
decreasing_by exact utf8Step_char_length h

theorem pyDecodeParts_err_length {bs cps bad rest : List Nat}
    (h : pyDecodeParts bs = (cps, some (bad, rest))) : rest.length < bs.length := by
  unfold pyDecodeParts at h
  split at h
  · simp at h
  · next cp rest' hstep =>
    simp only at h
    have hl := utf8Step_char_length hstep
    have h2 : (pyDecodeParts rest').2 = some (bad, rest) := by
      have := congrArg Prod.snd h
      simpa using this
    have h1 : pyDecodeParts rest' = ((pyDecodeParts rest').1, some (bad, rest)) := by
      rw [← h2]
    have := pyDecodeParts_err_length h1
    omega
  · next bad' rest' hstep =>
    have h2 := congrArg Prod.snd h
    simp at h2
    cases h2.2
    have := utf8Step_err_length hstep
    omega
termination_by bs.length
decreasing_by exact hl

/-- Lower-case hex digit of a value below 16, as a code point. -/
def hexDigit (n : Nat) : Nat := if n < 10 then 48 + n else 87 + n

/-- Code points of the replacement the code builds for a faulty byte slice:
a backslash, an x, and bytes.hex() of the slice (two lower-case digits per
byte). -/
def hexEscape (bad : List Nat) : List Nat :=
  [92, 120] ++ bad.flatMap (fun b => [hexDigit (b / 16), hexDigit (b % 16)])

/-- utilities.robust_byte_decode: try to decode; on a UnicodeDecodeError,
emit the decoded prefix, the hex escape of the faulty bytes, and recurse on
the remainder.  The output is the Python string as a list of code points. -/
def robust_byte_decode (bs : List Nat) : List Nat :=
  match h : pyDecodeParts bs with
  | (_cps, none) => (pyDecodeParts bs).1
  | (_cps, some (bad, rest)) => (pyDecodeParts bs).1 ++ hexEscape bad ++ robust_byte_decode rest
termination_by bs.length
decreasing_by exact pyDecodeParts_err_length h

/-- A byte that no UTF-8 sequence position at a fresh decoder state accepts:
a stray continuation byte (80..BF), an overlong lead (C0/C1), or F5..FF.
These are exactly the single bytes the strict decoder rejects alone. -/
def invalidStartByte (b : Nat) : Prop := (0x80 ≤ b ∧ b < 0xC2) ∨ 0xF5 ≤ b

instance (b : Nat) : Decidable (invalidStartByte b) := by
  unfold invalidStartByte; infer_instance

/-! ## Sweep specification normalisation (SimulationManager.__init__) -/

/-- One element of an iterable passed as vars: a tuple-like element, a bare
number, or a value that is neither iterable nor numeric. -/
inductive Item where
  | tup (t : List Val)
  | scalar (v : Val)
  | other
deriving DecidableEq

/-- The runtime shape of the vars argument: a pandas MultiIndex (whose level
names may individually be missing), some other iterable, or a non-iterable. -/
inductive SweepVars where
  | multiIndex (names : List (Option String)) (tuples : List (List Val))
  | iter (items : List Item)
  | notIterable
deriving DecidableEq

/-- The runtime shape of the var_names argument. -/
inductive VarNamesArg where
  | none
  | str (s : String)
  | list (l : List String)
deriving DecidableEq

def Item.isTup : Item → Bool
  | .tup _ => true
  | _ => false

def Item.isOther : Item → Bool
  | .other => true
  | _ => false

/-- The element Python builds for each item in the single-axis branch,
[(item,) for item in vars]: a one-tuple holding the item itself. -/
def wrapItem : Item → Item
  | .scalar v => .tup [v]
  | .tup t => .tup [Val.tup t]
  | .other => .other

/-- pandas MultiIndex.from_tuples on a Python list with a list of names
(pandas 2.x): an empty list with names yields an empty index; a non-tuple
element makes the tuple-length scan raise TypeError; otherwise tuples are
right-padded with missing values to the longest length k, and the index is
built when the name count equals k (ValueError otherwise). -/
def fromTuplesList (items : List Item) (names : List String) :
    Except PyErr (List String × List (List Val)) :=
  if items.isEmpty then .ok (names, [])
  else if items.any (fun it => ¬ it.isTup) then .error .typeError
  else
    let tuples := items.map (fun it => match it with | .tup t => t | _ => [])
    let k := (tuples.map List.length).foldl max 0
    if names.length = k then
      .ok (names, tuples.map (fun t => t ++ List.replicate (k - t.length) Val.null))
    else .error .valueError

/-- pandas MultiIndex.from_tuples with a bare string as names: the
tuple-length scan still raises TypeError on a non-tuple element first;
otherwise name validation rejects a non-list-like names value. -/
def fromTuplesStrName (items : List Item) :
    Except PyErr (List String × List (List Val)) :=
  if items.isEmpty then .error .valueError
  else if items.any (fun it => ¬ it.isTup) then .error .typeError
  else .error .valueError

/-- pandas MultiIndex.reorder_levels with an explicit order: level j of the
result is level order(j) of the input, both for the names and inside every
tuple. -/
def reorder_levels (order : List Nat) (names : List String) (tuples : List (List Val)) :
    List String × List (List Val) :=
  (order.map (fun i => names.getD i ""),
   tuples.map (fun t => order.map (fun i => t.getD i Val.null)))

/-- The order reversed(range(n)) used at simulation.py line 94. -/
def reverseOrder (n : Nat) : List Nat := (List.range n).reverse

/-- The vars checking/typecasting block of SimulationManager.__init__
(simulation.py lines 72..94), ending with the reorder_levels reversal: it
either raises (ValueError for the explicit validation branches, or whatever
pandas raises while building the index) or produces the canonical named
index. -/
def normalizeSweepVars (vars : SweepVars) (var_names : VarNamesArg) :
    Except PyErr (List String × List (List Val)) :=
  match vars with
  | .multiIndex names tuples =>
    if names.any (fun o => o.isNone) then .error .valueError
    else
      let nms := names.map (fun o => o.getD "")
      .ok (reorder_levels (reverseOrder nms.length) nms tuples)
  | .iter items =>
    if items.any (fun it => it.isOther) then .error .valueError
    else
      match items.head? with
      | Option.none => .error .indexError
      | some (.tup _) =>
        match var_names with
        | .none => .error .valueError
        | .str _ =>
          match fromTuplesStrName items with
          | .error e => .error e
          | .ok p => .ok (reorder_levels (reverseOrder p.1.length) p.1 p.2)
        | .list l =>
          match fromTuplesList items l with
          | .error e => .error e
          | .ok p => .ok (reorder_levels (reverseOrder p.1.length) p.1 p.2)
      | some (.scalar _) =>
        match var_names with
        | .str s =>
          match fromTuplesList (items.map wrapItem) [s] with
          | .error e => .error e
          | .ok p => .ok (reorder_levels (reverseOrder p.1.length) p.1 p.2)
        | _ => .error .valueError
      | some .other => .error .valueError
  | .notIterable => .error .valueError

/-! ## Result reconciliation: reindexing one block (SimulationManager.run,
simulation.py lines 187..198) -/

/-- The canonical sweep index held in self.newSweepingVars. -/
structure MIdx where
  names : List String
  tuples : List (List Val)

/-- A pandas DataFrame as the merge loop sees it: the MultiIndex level names
and the rows, each an index tuple (aligned with the names) with its payload
of dependent columns. -/
structure DFrame (α : Type) where
  names : List String
  rows : List (List Val × α)

/-- block.index.get_level_values(name): the values of the named level in row
order. -/
def getLevelValues {α : Type} (d : DFrame α) (name : String) : List Val :=
  d.rows.map (fun r => r.1.getD (d.names.indexOf name) Val.null)

/-- pandas .unique(): distinct values in order of first appearance. -/
def uniqueFirst (l : List Val) : List Val :=
  l.foldl (fun acc v => if v ∈ acc then acc else acc ++ [v]) []

/-- pandas MultiIndex.from_product: all combinations, leftmost level slowest. -/
def listProd : List (List Val) → List (List Val)
  | [] => [[]]
  | lvl :: rest => lvl.flatMap (fun v => (listProd rest).map (fun t => v :: t))

/-- DataFrame row lookup by index tuple, as reindex uses it on a
duplicate-free index: the matching row if present. -/
def lookupRow {α : Type} (d : DFrame α) (t : List Val) : Option α :=
  (d.rows.find? (fun r => decide (r.1 = t))).map (fun r => r.2)

/-- The reindexing step of SimulationManager.run for one concatenated block:
drop the sweep names from the block index names, take each remaining native
level's unique observed values, build the cross-product of the sweep tuples
with the cross-product of those value sets, and reindex the block onto it -
rows absent from the data become missing (NaN) entries. -/
def reindexBlock {α : Type} (sweep : MIdx) (d : DFrame α) : DFrame (Option α) :=
  let origIvarnames := d.names.filter (fun n => decide (n ∉ sweep.names))
  let uniqueValues := origIvarnames.map (fun n => uniqueFirst (getLevelValues d n))
  let reindexedOrigIvars := listProd uniqueValues
  let newTuples := sweep.tuples.flatMap (fun a => reindexedOrigIvars.map (fun b => a ++ b))
  { names := sweep.names ++ origIvarnames,
    rows := newTuples.map (fun t => (t, lookupRow d t)) }

/-! ## Result collection loop (SimulationManager.run, lines 156..177) -/

/-- A processed result block as the collection loop sees it: either a pandas
DataFrame (an indexed block, with possibly-unnamed index levels) or any other
object (the untouched scalar pwdt block), which the loop never merges. -/
inductive Blk (α : Type) where
  | df (names : List (Option String)) (rows : List (List Val × α))
  | plain (name : String) (rows : List (List Val × α))
deriving DecidableEq

def Blk.isDF {α : Type} : Blk α → Bool
  | .df _ _ => true
  | _ => false

/-- Index level names after pandas concat appends two equal-depth indexes:
a level keeps its name only where both operands agree, else it loses it. -/
def concatNames (n1 n2 : List (Option String)) : List (Option String) :=
  n1.zipWith (fun a b => if a = b then a else Option.none) n2

/-- pd.concat([x, y]) for the loop's call shape (y is a DataFrame): row-wise
concatenation when x is also a DataFrame, TypeError otherwise. -/
def pdConcat {α : Type} (x y : Blk α) : Except PyErr (Blk α) :=
  match x, y with
  | .df n1 r1, .df n2 r2 => .ok (.df (concatNames n1 n2) (r1 ++ r2))
  | _, _ => .error .typeError

/-- One worker return value as the collection loop consumes it: the data
block list (None when the run failed to produce readable output) and the
per-block metadata list. -/
structure RunOutcome (α μ : Type) where
  data : Option (List (Blk α))
  metadata : List μ

/-- The inner for-loop over enumerate(retvals data) of a non-template worker:
DataFrame blocks are concatenated onto the block at the same position (list
indexing can fail; a non-DataFrame template position raises TypeError inside
pd.concat), non-DataFrame blocks are skipped. -/
def appendWorkerBlocks {α : Type} (cur : List (Blk α)) (i : Nat) :
    List (Blk α) → Except PyErr (List (Blk α))
  | [] => .ok cur
  | blk :: rest =>
    match blk with
    | .plain _ _ => appendWorkerBlocks cur (i + 1) rest
    | .df n r =>
      match cur.get? i with
      | some old =>
        match pdConcat old (.df n r) with
        | .ok c => appendWorkerBlocks (cur.set i c) (i + 1) rest
        | .error e => .error e
      | Option.none => .error .indexError

/-- One iteration of the collection loop: a worker without data is ignored;
the first worker with data installs its blocks and metadata as the template;
every later worker with data is appended blockwise. -/
def collectStep {α μ : Type} (st : Bool × List (Blk α) × List μ) (o : RunOutcome α μ) :
    Except PyErr (Bool × List (Blk α) × List μ) :=
  match o.data with
  | Option.none => .ok st
  | some blocks =>
    if st.1 then .ok (false, blocks, o.metadata)
    else
      match appendWorkerBlocks st.2.1 0 blocks with
      | .ok cur => .ok (false, cur, st.2.2)
      | .error e => .error e

/-- The whole collection loop of SimulationManager.run over the finished
workers, producing the concatenated block list and the template metadata. -/
def collectOutcomes {α μ : Type} (outs : List (RunOutcome α μ)) :
    Except PyErr (List (Blk α) × List μ) :=
  match outs.foldlM collectStep (true, [], []) with
  | .ok st => .ok (st.2.1, st.2.2)
  | .error e => .error e

/-! ## Worker function (SimulationManager._sim_worker_fcn, lines 275..323) -/

/-- The exception classes that pwdt.read_file can raise at this call site:
the two classes the worker catches, and anything else (which propagates). -/
inductive ReadErrKind where
  | childProcessError (msg : String)
  | stopIteration (msg : String)
  | otherExc (msg : String)
deriving DecidableEq

/-- A block of the dataset as read from disk: its name, attached metadata,
its native independent-variable names, and its rows keyed by the native
index values. -/
structure RawBlock (α : Type) where
  name : String
  md : String
  ivarnames : List String
  rows : List (List Val × α)

/-- The block-processing loop of the worker: a block with native independent
variables gets the swept variable names prepended to its index names and the
swept values prepended to every row's index tuple; a block without
independent variables is passed through as it is. -/
def processBlocks {α : Type} (vars : List (String × Val)) (blocks : List (RawBlock α)) :
    List (Blk α) :=
  blocks.map (fun b =>
    if b.ivarnames.isEmpty then .plain b.name b.rows
    else
      .df ((vars.map Prod.fst ++ b.ivarnames).map some)
        (b.rows.map (fun r => (vars.map Prod.snd ++ r.1, r.2))))

/-- What the worker returns to the pool: the read-error record if any, the
processed blocks (None on failure), and the per-block name/metadata list. -/
structure WorkerRet (α : Type) where
  readError : Option (List String)
  data : Option (List (Blk α))
  metadata : Option (List (String × String))
deriving DecidableEq

/-- SimulationManager._sim_worker_fcn after the subprocess ran: if the
expected output file is absent, return (not raise) an outcome whose
read-error names the missing output; if reading raises one of the two
recognised classes, return an outcome with a read-error; any other exception
propagates; otherwise process and return the blocks. -/
def simWorkerFcn {α : Type} (vars : List (String × Val)) (origDataFilePath : String)
    (outFileProduced : Bool)
    (readFileResult : Except ReadErrKind (List (RawBlock α))) :
    Except ReadErrKind (WorkerRet α) :=
  if ¬ outFileProduced then
    .ok { readError := some ["Output File not found in expected location " ++ origDataFilePath,
            "No output file generated: Please check workspace settings, available license count and simulator convergence",
            "FileNotFoundError",
            "Output File not found in expected location " ++ origDataFilePath],
          data := Option.none, metadata := Option.none }
  else
    match readFileResult with
    | .error (.childProcessError m) =>
      .ok { readError := some ["Output File unreadable: Please check available license count and simulator convergence",
              "ChildProcessError", m],
            data := Option.none, metadata := Option.none }
    | .error (.stopIteration m) =>
      .ok { readError := some ["Output File unreadable: Please check available license count and simulator convergence",
              "StopIteration", m],
            data := Option.none, metadata := Option.none }
    | .error (.otherExc m) => .error (.otherExc m)
    | .ok blocks =>
      .ok { readError := Option.none, data := some (processBlocks vars blocks),
            metadata := some (blocks.map (fun b => (b.name, b.md))) }

/-! ## Log aggregation (logging.LogFileHandler) -/

/-- One finished worker dictionary as logging consumes it. -/
structure FinishedWorker where
  workerName : String
  returnCode : Int
  logStr : List Char
  errStr : List Char
  readError : Option (List String)
deriving DecidableEq

/-- First occurrence of a pattern in a character stream, returning what
follows it; None when the pattern does not occur (re.search failing). -/
def afterFirst (pat : List Char) : List Char → Option (List Char)
  | [] => Option.none
  | c :: t => if pat <+: (c :: t) then some ((c :: t).drop pat.length) else afterFirst pat t

/-- Characters before the first occurrence of a terminator pattern. -/
def takeUntil (pat : List Char) : List Char → List Char
  | [] => []
  | c :: t => if pat <+: (c :: t) then [] else c :: takeUntil pat t

/-- LogFileHandler extraction of the Total CPU time field: the text captured
between the field marker and the closing " seconds." (the source pattern
allows variable spacing around =; a single space is used here), None when the
log has no such field. -/
def extractCpuTime (content : List Char) : Option (List Char) :=
  (afterFirst ("Total CPU time = ".toList) content).map (takeUntil " seconds.".toList)

/-- Header lines of the paragraph pattern used for warnings and errors: each
occurrence of the tag yields the tag and the rest of its line. -/
def headersAux (tag : List Char) : List Char → List (List Char)
  | [] => []
  | c :: t =>
    if tag <+: (c :: t) then (tag ++ takeUntil ['\n'] ((c :: t).drop tag.length)) :: headersAux tag t
    else headersAux tag t

/-- Distinct values in order of first appearance (Python dict key order). -/
def dedupFirst {α : Type} [DecidableEq α] (l : List α) : List α :=
  l.foldl (fun acc v => if v ∈ acc then acc else acc ++ [v]) []

/-- The per-run structured record __process_worker_logs stores (the fields
the summary reads). -/
structure RunLog where
  returnCode : Int
  readError : Option (List String)
  cpuTime : Option (List Char)
  simWarnings : List String
  simErrors : List String
deriving DecidableEq

/-- LogFileHandler.__process_worker_logs: one record per worker, keyed by the
worker name, with the parsed simulator fields and the grouped warning/error
headers (the keys of the grouped dictionaries). -/
def processWorkerLogs (fws : List FinishedWorker) : List (String × RunLog) :=
  fws.map (fun fw =>
    (fw.workerName,
     { returnCode := fw.returnCode,
       readError := fw.readError,
       cpuTime := extractCpuTime fw.logStr,
       simWarnings := (dedupFirst (headersAux ("Warning detected".toList) fw.logStr)).map List.asString,
       simErrors := (dedupFirst (headersAux ("Error detected".toList) fw.logStr)).map List.asString }))

/-- Python float() applied to the result of the field extraction: None makes
it raise TypeError, an unparsable string ValueError, a decimal literal parses
(exponents and signs are not needed by the sources' log format). -/
def digitVal (c : Char) : Option Nat :=
  if c.isDigit then some (c.toNat - 48) else Option.none

def digitsToNat (ds : List Char) : Option Nat :=
  if ds.isEmpty then Option.none
  else ds.foldlM (fun acc c => (digitVal c).map (fun d => acc * 10 + d)) 0

def pyFloatParse (s : List Char) : Option Rat :=
  match s.span (fun c => decide (c ≠ '.')) with
  | (a, []) => (digitsToNat a).map (fun n => (n : Rat))
  | (a, _dot :: frac) =>
    match digitsToNat a, digitsToNat frac with
    | some n, some f => some ((n : Rat) + (f : Rat) / ((10 : Rat) ^ frac.length))
    | _, _ => Option.none

def pyFloatOf (v : Option (List Char)) : Except PyErr Rat :=
  match v with
  | Option.none => .error .typeError
  | some s =>
    match pyFloatParse s with
    | some r => .ok r
    | Option.none => .error .valueError

/-- Add one run name under a message key: Python creates the key at the end
on first sight and appends the run name to its list. -/
def addEntry (acc : List (String × List String)) (key name : String) :
    List (String × List String) :=
  if acc.any (fun p => decide (p.1 = key)) then
    acc.map (fun p => if p.1 = key then (p.1, p.2 ++ [name]) else p)
  else acc ++ [(key, [name])]

/-- The effect of one whole-run addEntry pass on an already-present entry:
the run name is appended exactly to the keys the run exhibits. -/
def bumpIf (ws : List String) (name : String) (p : String × List String) :
    String × List String :=
  if p.1 ∈ ws then (p.1, p.2 ++ [name]) else p

/-- The warnings (or errors) half of LogFileHandler.__summarize_logfiles:
group every message observed in any run by its text, collecting the names of
the runs exhibiting it, in run order. -/
def summarizeWarnErr (data : List (String × RunLog)) (proj : RunLog → List String) :
    List (String × List String) :=
  data.foldl (fun acc wr => (proj wr.2).foldl (fun acc2 w => addEntry acc2 w wr.1) acc) []

/-- The read-error half of __summarize_logfiles. -/
structure ReadErrSummary where
  totalSims : Nat
  readErrorCount : Nat
  errors : List String
deriving DecidableEq, Repr

def summarizeRead (data : List (String × RunLog)) : ReadErrSummary :=
  data.foldl (fun acc wr =>
    { totalSims := acc.totalSims + 1,
      readErrorCount := acc.readErrorCount + (if wr.2.readError.isSome then 1 else 0),
      errors :=
        match wr.2.readError with
        | some (e :: _) => if e ∈ acc.errors then acc.errors else acc.errors ++ [e]
        | _ => acc.errors })
    ⟨0, 0, []⟩

/-- What print_summary prints for one grouped message: the per-run name list,
collapsed to an All Simulations notice when every run exhibits it. -/
inductive SummaryEntry where
  | allSims (msg : String) (count : Nat)
  | listed (msg : String) (sims : List String)
deriving DecidableEq, Repr

def renderEntries (total : Nat) (summary : List (String × List String)) :
    List SummaryEntry :=
  summary.map (fun p => if p.2.length = total then .allSims p.1 p.2.length else .listed p.1 p.2)

/-- The text print_summary produces, structured: the cumulated CPU time, the
read success/failure tallies with distinct messages, and the itemised (or
collapsed) error and warning listings; an empty entry list is printed as the
no-errors (no-warnings) message. -/
structure Summary where
  cumulatedCpuTime : Rat
  readErrors : ReadErrSummary
  errorEntries : List SummaryEntry
  warningEntries : List SummaryEntry
deriving DecidableEq

/-- LogFileHandler.print_summary: it first folds float(record cpu time) over
every run - so it raises before printing anything when a run's log lacks the
field - and then renders the three summaries. -/
def printSummary (data : List (String × RunLog)) : Except PyErr Summary :=
  match data.foldlM (fun acc wr => (pyFloatOf wr.2.cpuTime).map (fun r => acc + r)) (0 : Rat) with
  | .error e => .error e
  | .ok cpu =>
    .ok { cumulatedCpuTime := cpu,
          readErrors := summarizeRead data,
          errorEntries := renderEntries data.length (summarizeWarnErr data RunLog.simErrors),
          warningEntries := renderEntries data.length (summarizeWarnErr data RunLog.simWarnings) }

/-! ## Lemmas about the netlist patcher -/

theorem processLine_append (cs : List (List Char × List Char))
    (t : List Char × List Char) (z : List Char) :
    processLine (cs ++ [t]) z = patchLine t (processLine cs z) := by
  unfold processLine
  rw [List.foldl_append]
  rfl

theorem varPat_pref_varLine (nv : List Char × List Char) (f : Bool) :
    varPat nv.1 f <+: varLine nv f := by
  unfold varLine
  rw [List.append_assoc]
  exact List.prefix_append _ _

theorem varPat_length_lt (n : List Char) :
    (varPat n true).length < (varPat n false).length := by
  simp [varPat, glbStr]

theorem varLine_true_ne_false (nv : List Char × List Char) :
    varLine nv true ≠ varLine nv false := by
  intro h
  have := congrArg List.length h
  simp [varLine, varPat, glbStr] at this
  omega

theorem pref_of_common {a b c : List Char} (ha : a <+: c) (hb : b <+: c)
    (h : a.length ≤ b.length) : a <+: b :=
  List.prefix_of_prefix_length_le ha hb h

theorem fireable_step {q : List Char × List Char} {f : Bool} {w : List Char}
    (h : Fireable q f w) : patchLine q w = varLine q f := by
  obtain ⟨h1, h2⟩ := h
  unfold patchLine
  cases f with
  | true => rw [if_pos h1]
  | false => rw [if_neg (h2 rfl), if_pos h1]

theorem patPrefixOfPatch {q : List Char × List Char} {χ : List Char} {f : Bool}
    (h : patchLine q χ = varLine q f) : varPat q.1 f <+: χ := by
  unfold patchLine at h
  by_cases h1 : varPat q.1 true <+: χ
  · rw [if_pos h1] at h
    cases f with
    | true => exact h1
    | false => exact absurd h (varLine_true_ne_false q)
  · rw [if_neg h1] at h
    by_cases h2 : varPat q.1 false <+: χ
    · rw [if_pos h2] at h
      cases f with
      | false => exact h2
      | true => exact absurd h.symm (varLine_true_ne_false q)
    · rw [if_neg h2] at h
      exact h ▸ varPat_pref_varLine q f

/-- The refire lemma: if the pattern of q with form f is present (with the
plain-first priority respected) on the result of folding the variable list bs
over some line, then after restarting the fold from any line on which q is
fireable with form f, the step of q at the end rewrites the line back to
exactly q's replacement line. -/
theorem refire2 (bs : List (List Char × List Char)) :
    ∀ (x w : List Char) (q : List Char × List Char) (f : Bool),
    varPat q.1 f <+: processLine bs x →
    (f = false → ¬ varPat q.1 true <+: processLine bs x) →
    Fireable q f w →
    patchLine q (processLine bs w) = varLine q f := by
  induction bs using List.reverseRecOn with
  | nil =>
    intro x w q f _h1 _h2 hF
    exact fireable_step hF
  | append_singleton cs t ih =>
    intro x w q f h1 h2 hF
    rw [processLine_append] at h1 h2 ⊢
    by_cases ht1 : varPat t.1 true <+: processLine cs x
    · -- pass 1: t fired with the plain form
      have hsp : patchLine t (processLine cs x) = varLine t true := by
        unfold patchLine; rw [if_pos ht1]
      rw [hsp] at h1 h2
      rcases Nat.le_total (varPat q.1 f).length (varPat t.1 true).length with hle | hle
      · -- q's pattern is nested inside t's pattern
        have hqt : varPat q.1 f <+: varPat t.1 true :=
          pref_of_common h1 (varPat_pref_varLine t true) hle
        have hq_s : varPat q.1 f <+: processLine cs x := hqt.trans ht1
        have hq_pr : f = false → ¬ varPat q.1 true <+: processLine cs x := by
          intro hf hp
          have hpg : varPat q.1 true <+: varPat q.1 f := by
            refine pref_of_common hp hq_s ?_
            have := varPat_length_lt q.1
            subst hf; omega
          exact h2 hf (hpg.trans h1)
        have hstep_q := ih x w q f hq_s hq_pr hF
        by_cases htu1 : varPat t.1 true <+: processLine cs w
        · have hpt : patchLine t (processLine cs w) = varLine t true := by
            unfold patchLine; rw [if_pos htu1]
          rw [hpt]
          -- φ = ψ = plain is forced here only when t's pattern is the shorter;
          -- compare pattern lengths on the restart state
          have hqu : varPat q.1 f <+: processLine cs w := patPrefixOfPatch hstep_q
          rcases Nat.le_total (varPat q.1 f).length (varPat t.1 true).length with hle2 | hle2
          · -- q's pattern survives inside t's replacement line
            have hqt2 : varPat q.1 f <+: varPat t.1 true :=
              pref_of_common hqu htu1 hle2
            have hqL : varPat q.1 f <+: varLine t true :=
              hqt2.trans (varPat_pref_varLine t true)
            refine fireable_step ⟨hqL, ?_⟩
            intro hf hp
            have hpg : varPat q.1 true <+: varPat q.1 f := by
              refine pref_of_common hp hqL ?_
              have := varPat_length_lt q.1
              subst hf; omega
            exact h2 hf (hpg.trans h1)
          · -- t's pattern is nested in q's; the replaced line is the pass-1 one
            have hqL : varPat q.1 f <+: varLine t true := h1
            exact fireable_step ⟨hqL, h2⟩
        · by_cases htu2 : varPat t.1 false <+: processLine cs w
          · have hpt : patchLine t (processLine cs w) = varLine t false := by
              unfold patchLine; rw [if_neg htu1, if_pos htu2]
            rw [hpt]
            have hqu : varPat q.1 f <+: processLine cs w := patPrefixOfPatch hstep_q
            rcases Nat.le_total (varPat q.1 f).length (varPat t.1 false).length with hle2 | hle2
            · have hqt2 : varPat q.1 f <+: varPat t.1 false :=
                pref_of_common hqu htu2 hle2
              have hqL : varPat q.1 f <+: varLine t false :=
                hqt2.trans (varPat_pref_varLine t false)
              refine fireable_step ⟨hqL, ?_⟩
              intro hf hp
              have hpg : varPat q.1 true <+: varPat q.1 f := by
                refine pref_of_common hp hqL ?_
                have := varPat_length_lt q.1
                subst hf; omega
              exact h2 hf (hpg.trans h1)
            · -- impossible: t's global pattern inside q's pattern, yet t fired
              -- plain in pass 1, so the plain pattern reaches the restart state
              exfalso
              have hpq : varPat t.1 true <+: varPat q.1 f := by
                refine pref_of_common ht1 hq_s ?_
                have := varPat_length_lt t.1
                omega
              exact htu1 (hpq.trans hqu)
          · have hpt : patchLine t (processLine cs w) = processLine cs w := by
              unfold patchLine; rw [if_neg htu1, if_neg htu2]
            rw [hpt]; exact hstep_q
      · -- t's pattern is nested inside q's pattern: restart refires t itself
        have htq : varPat t.1 true <+: varPat q.1 f :=
          pref_of_common (varPat_pref_varLine t true) h1 hle
        have hstep_t : patchLine t (processLine cs w) = varLine t true := by
          refine ih x w t true ht1 (fun hff => nomatch hff) ⟨htq.trans hF.1, fun hff => nomatch hff⟩
        rw [hstep_t]
        exact fireable_step ⟨h1, h2⟩
    · by_cases ht2 : varPat t.1 false <+: processLine cs x
      · -- pass 1: t fired with the global form
        have hsp : patchLine t (processLine cs x) = varLine t false := by
          unfold patchLine; rw [if_neg ht1, if_pos ht2]
        rw [hsp] at h1 h2
        rcases Nat.le_total (varPat q.1 f).length (varPat t.1 false).length with hle | hle
        · -- q's pattern nested inside t's global pattern
          have hqt : varPat q.1 f <+: varPat t.1 false :=
            pref_of_common h1 (varPat_pref_varLine t false) hle
          have hq_s : varPat q.1 f <+: processLine cs x := hqt.trans ht2
          have hq_pr : f = false → ¬ varPat q.1 true <+: processLine cs x := by
            intro hf hp
            have hpg : varPat q.1 true <+: varPat q.1 f := by
              refine pref_of_common hp hq_s ?_
              have := varPat_length_lt q.1
              subst hf; omega
            exact h2 hf (hpg.trans h1)
          have hstep_q := ih x w q f hq_s hq_pr hF
          by_cases htu1 : varPat t.1 true <+: processLine cs w
          · have hpt : patchLine t (processLine cs w) = varLine t true := by
              unfold patchLine; rw [if_pos htu1]
            rw [hpt]
            have hqu : varPat q.1 f <+: processLine cs w := patPrefixOfPatch hstep_q
            rcases Nat.le_total (varPat q.1 f).length (varPat t.1 true).length with hle2 | hle2
            · have hqt2 : varPat q.1 f <+: varPat t.1 true :=
                pref_of_common hqu htu1 hle2
              have hqL : varPat q.1 f <+: varLine t true :=
                hqt2.trans (varPat_pref_varLine t true)
              refine fireable_step ⟨hqL, ?_⟩
              intro hf hp
              have hpg : varPat q.1 true <+: varPat q.1 f := by
                refine pref_of_common hp hqL ?_
                have := varPat_length_lt q.1
                subst hf; omega
              exact h2 hf (hpg.trans h1)
            · -- impossible: t's plain pattern inside q's pattern reaches
              -- pass 1's pre-t state, contradicting t firing global there
              exfalso
              have hpq : varPat t.1 true <+: varPat q.1 f := by
                refine pref_of_common htu1 hqu hle2
              exact ht1 (hpq.trans hq_s)
          · by_cases htu2 : varPat t.1 false <+: processLine cs w
            · have hpt : patchLine t (processLine cs w) = varLine t false := by
                unfold patchLine; rw [if_neg htu1, if_pos htu2]
              rw [hpt]
              have hqu : varPat q.1 f <+: processLine cs w := patPrefixOfPatch hstep_q
              rcases Nat.le_total (varPat q.1 f).length (varPat t.1 false).length with hle2 | hle2
              · have hqt2 : varPat q.1 f <+: varPat t.1 false :=
                  pref_of_common hqu htu2 hle2
                have hqL : varPat q.1 f <+: varLine t false :=
                  hqt2.trans (varPat_pref_varLine t false)
                refine fireable_step ⟨hqL, ?_⟩
                intro hf hp
                have hpg : varPat q.1 true <+: varPat q.1 f := by
                  refine pref_of_common hp hqL ?_
                  have := varPat_length_lt q.1
                  subst hf; omega
                exact h2 hf (hpg.trans h1)
              · -- t's global pattern nested in q's: pass 2 replays pass 1
                exact fireable_step ⟨h1, h2⟩
            · have hpt : patchLine t (processLine cs w) = processLine cs w := by
                unfold patchLine; rw [if_neg htu1, if_neg htu2]
              rw [hpt]; exact hstep_q
        · -- t's global pattern nested inside q's pattern: restart refires t
          have htq : varPat t.1 false <+: varPat q.1 f :=
            pref_of_common (varPat_pref_varLine t false) h1 hle
          have hFt : Fireable t false w := by
            refine ⟨htq.trans hF.1, ?_⟩
            intro _ hp
            have hptq : varPat t.1 true <+: varPat q.1 f := by
              refine pref_of_common hp hF.1 ?_
              have := varPat_length_lt t.1
              omega
            have hpts : varPat t.1 true <+: varLine t false :=
              hptq.trans h1
            have hptg : varPat t.1 true <+: varPat t.1 false := by
              refine pref_of_common hpts (varPat_pref_varLine t false) ?_
              have := varPat_length_lt t.1
              omega
            exact ht1 (hptg.trans ht2)
          have hstep_t : patchLine t (processLine cs w) = varLine t false :=
            ih x w t false ht2 (fun _ => ht1) hFt
          rw [hstep_t]
          exact fireable_step ⟨h1, h2⟩
      · -- pass 1: t did not fire
        have hsp : patchLine t (processLine cs x) = processLine cs x := by
          unfold patchLine; rw [if_neg ht1, if_neg ht2]
        rw [hsp] at h1 h2
        have hstep_q := ih x w q f h1 h2 hF
        by_cases htu1 : varPat t.1 true <+: processLine cs w
        · have hpt : patchLine t (processLine cs w) = varLine t true := by
            unfold patchLine; rw [if_pos htu1]
          rw [hpt]
          have hqu : varPat q.1 f <+: processLine cs w := patPrefixOfPatch hstep_q
          rcases Nat.le_total (varPat q.1 f).length (varPat t.1 true).length with hle2 | hle2
          · have hqt2 : varPat q.1 f <+: varPat t.1 true :=
              pref_of_common hqu htu1 hle2
            have hqL : varPat q.1 f <+: varLine t true :=
              hqt2.trans (varPat_pref_varLine t true)
            refine fireable_step ⟨hqL, ?_⟩
            intro hf hp
            have hpg : varPat q.1 true <+: varPat q.1 f := by
              refine pref_of_common hp hqL ?_
              have := varPat_length_lt q.1
              subst hf; omega
            exact h2 hf (hpg.trans h1)
          · exfalso
            have htq2 : varPat t.1 true <+: varPat q.1 f :=
              pref_of_common htu1 hqu hle2
            exact ht1 (htq2.trans h1)
        · by_cases htu2 : varPat t.1 false <+: processLine cs w
          · have hpt : patchLine t (processLine cs w) = varLine t false := by
              unfold patchLine; rw [if_neg htu1, if_pos htu2]
            rw [hpt]
            have hqu : varPat q.1 f <+: processLine cs w := patPrefixOfPatch hstep_q
            rcases Nat.le_total (varPat q.1 f).length (varPat t.1 false).length with hle2 | hle2
            · have hqt2 : varPat q.1 f <+: varPat t.1 false :=
                pref_of_common hqu htu2 hle2
              have hqL : varPat q.1 f <+: varLine t false :=
                hqt2.trans (varPat_pref_varLine t false)
              refine fireable_step ⟨hqL, ?_⟩
              intro hf hp
              have hpg : varPat q.1 true <+: varPat q.1 f := by
                refine pref_of_common hp hqL ?_
                have := varPat_length_lt q.1
                subst hf; omega
              exact h2 hf (hpg.trans h1)
            · exfalso
              have htq2 : varPat t.1 false <+: varPat q.1 f :=
                pref_of_common htu2 hqu hle2
              exact ht2 (htq2.trans h1)
          · have hpt : patchLine t (processLine cs w) = processLine cs w := by
              unfold patchLine; rw [if_neg htu1, if_neg htu2]
            rw [hpt]; exact hstep_q

/-- Per-line idempotence of the patch loop: folding the variable dictionary
over a line twice gives the same line as folding it once. -/
theorem processLine_idem (vars : List (List Char × List Char)) (l : List Char) :
    processLine vars (processLine vars l) = processLine vars l := by
  induction vars using List.reverseRecOn with
  | nil => rfl
  | append_singleton bs q ih =>
    rw [processLine_append, processLine_append]
    by_cases h1 : varPat q.1 true <+: processLine bs l
    · have hw : patchLine q (processLine bs l) = varLine q true := by
        unfold patchLine; rw [if_pos h1]
      rw [hw]
      exact refire2 bs l (varLine q true) q true h1 (fun hff => nomatch hff)
        ⟨varPat_pref_varLine q true, fun hff => nomatch hff⟩
    · by_cases h2 : varPat q.1 false <+: processLine bs l
      · have hw : patchLine q (processLine bs l) = varLine q false := by
          unfold patchLine; rw [if_neg h1, if_pos h2]
        rw [hw]
        refine refire2 bs l (varLine q false) q false h2 (fun _ => h1) ⟨varPat_pref_varLine q false, ?_⟩
        intro _ hp
        have hpg : varPat q.1 true <+: varPat q.1 false := by
          refine pref_of_common hp (varPat_pref_varLine q false) ?_
          have := varPat_length_lt q.1
          omega
        exact h1 (hpg.trans h2)
      · have hw : patchLine q (processLine bs l) = processLine bs l := by
          unfold patchLine; rw [if_neg h1, if_neg h2]
        rw [hw, ih]
        exact hw

theorem pyReadlines_nil_iff {s : List Char} : pyReadlines s = [] ↔ s = [] := by
  constructor
  · intro h
    cases s with
    | nil => rfl
    | cons c t =>
      by_cases hc : c = '\n'
      · simp [pyReadlines, hc] at h
      · simp only [pyReadlines, if_neg hc] at h
        cases hR : pyReadlines t with
        | nil => rw [hR] at h; simp [consFirst] at h
        | cons l ls => rw [hR] at h; simp [consFirst] at h
  · intro h; subst h; rfl

theorem flatten_pyReadlines (s : List Char) : (pyReadlines s).flatten = s := by
  induction s with
  | nil => rfl
  | cons c t ih =>
    by_cases hc : c = '\n'
    · subst hc
      simp [pyReadlines, ih]
    · simp only [pyReadlines, if_neg hc]
      cases hR : pyReadlines t with
      | nil =>
        have ht : t = [] := pyReadlines_nil_iff.mp hR
        subst ht
        simp [consFirst]
      | cons l ls =>
        rw [hR] at ih
        simp only [consFirst, List.flatten_cons, List.cons_append] at ih ⊢
        rw [ih]

theorem pyReadlines_term {m : List Char} (hm : '\n' ∉ m) (rest : List Char) :
    pyReadlines (m ++ '\n' :: rest) = (m ++ ['\n']) :: pyReadlines rest := by
  induction m with
  | nil => simp [pyReadlines]
  | cons c m' ih =>
    have hc : c ≠ '\n' := fun h => hm (h ▸ List.mem_cons_self c m')
    have hm' : '\n' ∉ m' := fun h => hm (List.mem_cons_of_mem c h)
    show pyReadlines (c :: (m' ++ '\n' :: rest)) = ((c :: m') ++ ['\n']) :: pyReadlines rest
    simp only [pyReadlines, if_neg hc]
    rw [ih hm']
    simp [consFirst]

theorem pyReadlines_noterm {m : List Char} (hm : '\n' ∉ m) (hne : m ≠ []) :
    pyReadlines m = [m] := by
  induction m with
  | nil => exact absurd rfl hne
  | cons c m' ih =>
    have hc : c ≠ '\n' := fun h => hm (h ▸ List.mem_cons_self c m')
    have hm' : '\n' ∉ m' := fun h => hm (List.mem_cons_of_mem c h)
    simp only [pyReadlines, if_neg hc]
    cases hm'' : m' with
    | nil =>
      subst hm''
      simp [pyReadlines, consFirst]
    | cons d m'' =>
      rw [← hm'', ih hm' (by rw [hm'']; simp)]
      simp [consFirst]

theorem pyReadlines_flatten_proper : ∀ (ls : List (List Char)), ProperLines ls →
    pyReadlines ls.flatten = ls := by
  intro ls
  induction ls with
  | nil => intro _; rfl
  | cons l rest ih =>
    intro hp
    cases rest with
    | nil =>
      rcases hp with ⟨m, hm, hl⟩ | ⟨hnl, hne⟩
      · subst hl
        simp only [List.flatten_cons, List.flatten_nil, List.append_nil, List.append_assoc,
          List.cons_append, List.nil_append]
        rw [show m ++ ['\n'] = m ++ '\n' :: [] by simp]
        rw [pyReadlines_term hm]
        rfl
      · simp only [List.flatten_cons, List.flatten_nil, List.append_nil]
        exact pyReadlines_noterm hnl hne
    | cons l' rest' =>
      obtain ⟨⟨m, hm, hl⟩, hrest⟩ := hp
      subst hl
      have h2 := ih hrest
      simp only [List.flatten_cons] at h2 ⊢
      rw [List.append_assoc]
      rw [show (['\n'] ++ (l' ++ rest'.flatten)) = '\n' :: (l' ++ rest'.flatten) from rfl]
      rw [pyReadlines_term hm, h2]

theorem no_nl_cons {c : Char} {m : List Char} (hc : c ≠ '\n') (hm : '\n' ∉ m) :
    '\n' ∉ c :: m :=
  fun hmem => (List.mem_cons.mp hmem).elim (fun h => hc h.symm) hm

theorem properLines_pyReadlines (s : List Char) : ProperLines (pyReadlines s) := by
  induction s with
  | nil => trivial
  | cons c t ih =>
    by_cases hc : c = '\n'
    · subst hc
      simp only [pyReadlines, if_pos rfl]
      cases hR : pyReadlines t with
      | nil =>
        show ProperLines [['\n']]
        exact Or.inl ⟨[], by simp, rfl⟩
      | cons l ls =>
        rw [hR] at ih
        exact ⟨⟨[], by simp, rfl⟩, ih⟩
    · simp only [pyReadlines, if_neg hc]
      cases hR : pyReadlines t with
      | nil =>
        show ProperLines [[c]]
        exact Or.inr ⟨no_nl_cons hc (by simp), by simp⟩
      | cons l ls =>
        rw [hR] at ih
        cases ls with
        | nil =>
          show ProperLines [c :: l]
          rcases ih with ⟨m, hm, hl⟩ | ⟨hnl, _⟩
          · exact Or.inl ⟨c :: m, no_nl_cons hc hm, by rw [hl]; rfl⟩
          · exact Or.inr ⟨no_nl_cons hc hnl, by simp⟩
        | cons l2 ls2 =>
          obtain ⟨⟨m, hm, hl⟩, hrest⟩ := ih
          exact ⟨⟨c :: m, no_nl_cons hc hm, by rw [hl]; rfl⟩, hrest⟩

theorem varPat_getLast_eq (n : List Char) (f : Bool) :
    (varPat n f).getLast? = some '=' := by
  cases f with
  | true =>
    show (n ++ ['=']).getLast? = some '='
    exact List.getLast?_concat _
  | false =>
    show (glbStr ++ (n ++ ['='])).getLast? = some '='
    rw [← List.append_assoc]
    exact List.getLast?_concat _

theorem varPat_no_nl {n : List Char} {f : Bool} {l : List Char}
    (hal : TermLine l ∨ '\n' ∉ l) (hp : varPat n f <+: l) : '\n' ∉ varPat n f := by
  rcases hal with ⟨m, hm, hl⟩ | hnl
  · subst hl
    by_cases hle : (varPat n f).length ≤ m.length
    · have hpm : varPat n f <+: m := pref_of_common hp (List.prefix_append m ['\n']) hle
      exact fun hmem => hm (hpm.subset hmem)
    · have hlen2 : (varPat n f).length = (m ++ ['\n']).length := by
        have h1 := hp.length_le
        simp at h1 ⊢
        omega
      have heq : varPat n f = m ++ ['\n'] := hp.eq_of_length hlen2
      exfalso
      have h2 := varPat_getLast_eq n f
      rw [heq, List.getLast?_concat] at h2
      simp at h2
  · exact fun hmem => hnl (hp.subset hmem)

theorem patchLine_shape {nv : List Char × List Char} {l : List Char}
    (hv : '\n' ∉ nv.2) (hal : TermLine l ∨ '\n' ∉ l) :
    patchLine nv l = l ∨ TermLine (patchLine nv l) := by
  unfold patchLine
  by_cases h1 : varPat nv.1 true <+: l
  · rw [if_pos h1]
    right
    refine ⟨varPat nv.1 true ++ nv.2, ?_, by simp [varLine]⟩
    intro hmem
    rcases List.mem_append.mp hmem with hmem | hmem
    · exact varPat_no_nl hal h1 hmem
    · exact hv hmem
  · rw [if_neg h1]
    by_cases h2 : varPat nv.1 false <+: l
    · rw [if_pos h2]
      right
      refine ⟨varPat nv.1 false ++ nv.2, ?_, by simp [varLine]⟩
      intro hmem
      rcases List.mem_append.mp hmem with hmem | hmem
      · exact varPat_no_nl hal h2 hmem
      · exact hv hmem
    · rw [if_neg h2]; left; rfl

theorem processLine_shape {vars : List (List Char × List Char)} {l : List Char}
    (hv : ∀ nv ∈ vars, '\n' ∉ nv.2) (hal : TermLine l ∨ '\n' ∉ l) :
    processLine vars l = l ∨ TermLine (processLine vars l) := by
  induction vars generalizing l with
  | nil => left; rfl
  | cons nv rest ih =>
    have hstep : processLine (nv :: rest) l = processLine rest (patchLine nv l) := rfl
    rw [hstep]
    rcases patchLine_shape (hv nv (List.mem_cons_self nv rest)) hal with hkeep | hterm
    · rw [hkeep]
      exact ih (fun p hp => hv p (List.mem_cons_of_mem nv hp)) hal
    · rcases ih (fun p hp => hv p (List.mem_cons_of_mem nv hp)) (Or.inl hterm) with hkeep2 | hterm2
      · rw [hkeep2]; right; exact hterm
      · right; exact hterm2

theorem properLines_map_processLine {vars : List (List Char × List Char)}
    (hv : ∀ nv ∈ vars, '\n' ∉ nv.2) :
    ∀ (ls : List (List Char)), ProperLines ls → ProperLines (ls.map (processLine vars)) := by
  intro ls
  induction ls with
  | nil => intro _; trivial
  | cons l rest ih =>
    intro hp
    cases rest with
    | nil =>
      rcases hp with hterm | ⟨hnl, hne⟩
      · rcases processLine_shape hv (Or.inl hterm) with hkeep | hterm2
        · show ProperLines [processLine vars l]
          rw [hkeep]; exact Or.inl hterm
        · exact Or.inl hterm2
      · rcases processLine_shape hv (Or.inr hnl) with hkeep | hterm2
        · show ProperLines [processLine vars l]
          rw [hkeep]; exact Or.inr ⟨hnl, hne⟩
        · exact Or.inl hterm2
    | cons l' rest' =>
      obtain ⟨hterm, hrest⟩ := hp
      refine ⟨?_, ih hrest⟩
      rcases processLine_shape hv (Or.inl hterm) with hkeep | hterm2
      · rw [hkeep]; exact hterm
      · exact hterm2

theorem processLine_nomatch {vars : List (List Char × List Char)} {l : List Char}
    (h : ∀ nv ∈ vars, ¬ varPat nv.1 true <+: l ∧ ¬ varPat nv.1 false <+: l) :
    processLine vars l = l := by
  induction vars with
  | nil => rfl
  | cons nv rest ih =>
    have hstep : processLine (nv :: rest) l = processLine rest (patchLine nv l) := rfl
    have hkeep : patchLine nv l = l := by
      obtain ⟨hn1, hn2⟩ := h nv (List.mem_cons_self nv rest)
      unfold patchLine
      rw [if_neg hn1, if_neg hn2]
    rw [hstep, hkeep]
    exact ih (fun p hp => h p (List.mem_cons_of_mem nv hp))

/-! ## Lemmas about the byte decoder -/

theorem utf8Cont3_ne_done {b c d : Nat} {t3 : List Nat} :
    utf8Cont3 b c d t3 ≠ .done := by
  cases t3 with
  | nil => simp [utf8Cont3]
  | cons e t4 =>
    by_cases hc : contOK e = true
    · simp [utf8Cont3, hc]
    · simp [utf8Cont3, hc]

theorem utf8Cont2_ne_done {b c : Nat} {t2 : List Nat} :
    utf8Cont2 b c t2 ≠ .done := by
  cases t2 with
  | nil => simp [utf8Cont2]
  | cons d t3 =>
    by_cases hc : contOK d = true
    · by_cases hs : seqLen b = 3
      · simp [utf8Cont2, hc, hs]
      · simp [utf8Cont2, hc, hs]
        exact utf8Cont3_ne_done
    · simp [utf8Cont2, hc]

theorem utf8Cont1_ne_done {b : Nat} {t : List Nat} :
    utf8Cont1 b t ≠ .done := by
  cases t with
  | nil => simp [utf8Cont1]
  | cons c t2 =>
    by_cases hc : contOK1 b c = true
    · by_cases hs : seqLen b = 2
      · simp [utf8Cont1, hc, hs]
      · simp [utf8Cont1, hc, hs]
        exact utf8Cont2_ne_done
    · simp [utf8Cont1, hc]

theorem utf8Step_cons_ne_done {b : Nat} {t : List Nat} :
    utf8Step (b :: t) ≠ .done := by
  by_cases hb : b < 0x80
  · simp [utf8Step, hb]
  · by_cases hz : seqLen b = 0
    · simp [utf8Step, hb, hz]
    · simp [utf8Step, hb, hz]
      exact utf8Cont1_ne_done

theorem utf8Cont3_char_append {b c d cp : Nat} {t3 r q : List Nat}
    (h : utf8Cont3 b c d t3 = .char cp r) :
    utf8Cont3 b c d (t3 ++ q) = .char cp (r ++ q) := by
  cases t3 with
  | nil => simp [utf8Cont3] at h
  | cons e t4 =>
    by_cases hc : contOK e = true
    · simp [utf8Cont3, hc] at h ⊢
      exact ⟨h.1, by rw [h.2]⟩
    · simp [utf8Cont3, hc] at h

theorem utf8Cont2_char_append {b c cp : Nat} {t2 r q : List Nat}
    (h : utf8Cont2 b c t2 = .char cp r) :
    utf8Cont2 b c (t2 ++ q) = .char cp (r ++ q) := by
  cases t2 with
  | nil => simp [utf8Cont2] at h
  | cons d t3 =>
    by_cases hc : contOK d = true
    · by_cases hs : seqLen b = 3
      · simp [utf8Cont2, hc, hs] at h ⊢
        exact ⟨h.1, by rw [h.2]⟩
      · simp [utf8Cont2, hc, hs] at h ⊢
        exact utf8Cont3_char_append h
    · simp [utf8Cont2, hc] at h

theorem utf8Cont1_char_append {b cp : Nat} {t r q : List Nat}
    (h : utf8Cont1 b t = .char cp r) :
    utf8Cont1 b (t ++ q) = .char cp (r ++ q) := by
  cases t with
  | nil => simp [utf8Cont1] at h
  | cons c t2 =>
    by_cases hc : contOK1 b c = true
    · by_cases hs : seqLen b = 2
      · simp [utf8Cont1, hc, hs] at h ⊢
        exact ⟨h.1, by rw [h.2]⟩
      · simp [utf8Cont1, hc, hs] at h ⊢
        exact utf8Cont2_char_append h
    · simp [utf8Cont1, hc] at h

theorem utf8Step_char_append {cp : Nat} {bs r q : List Nat}
    (h : utf8Step bs = .char cp r) :
    utf8Step (bs ++ q) = .char cp (r ++ q) := by
  cases bs with
  | nil => simp [utf8Step] at h
  | cons b t =>
    by_cases hb : b < 0x80
    · simp [utf8Step, hb] at h ⊢
      exact ⟨h.1, by rw [h.2]⟩
    · by_cases hz : seqLen b = 0
      · simp [utf8Step, hb, hz] at h
      · simp [utf8Step, hb, hz] at h ⊢
        exact utf8Cont1_char_append h

theorem pyDecodeParts_done {bs : List Nat} (h : utf8Step bs = .done) :
    pyDecodeParts bs = ([], none) := by
  conv_lhs => unfold pyDecodeParts
  split
  · rfl
  · next cp' rest' heq => rw [h] at heq; cases heq
  · next bad' rest' heq => rw [h] at heq; cases heq

theorem pyDecodeParts_char {bs : List Nat} {cp : Nat} {rest : List Nat}
    (h : utf8Step bs = .char cp rest) :
    pyDecodeParts bs = (cp :: (pyDecodeParts rest).1, (pyDecodeParts rest).2) := by
  conv_lhs => unfold pyDecodeParts
  split
  · next heq => rw [h] at heq; cases heq
  · next cp' rest' heq =>
    rw [h] at heq
    injection heq with h1 h2
    subst h1; subst h2
    rfl
  · next bad' rest' heq => rw [h] at heq; cases heq

theorem pyDecodeParts_err {bs bad rest : List Nat}
    (h : utf8Step bs = .err bad rest) :
    pyDecodeParts bs = ([], some (bad, rest)) := by
  conv_lhs => unfold pyDecodeParts
  split
  · next heq => rw [h] at heq; cases heq
  · next cp' rest' heq => rw [h] at heq; cases heq
  · next bad' rest' heq =>
    rw [h] at heq
    injection heq with h1 h2
    subst h1; subst h2
    rfl

theorem pyDecodeParts_ok_append {pre q s1 : List Nat}
    (h : pyDecodeParts pre = (s1, none)) :
    pyDecodeParts (pre ++ q) = (s1 ++ (pyDecodeParts q).1, (pyDecodeParts q).2) := by
  rcases hstep : utf8Step pre with _ | ⟨cp, rest⟩ | ⟨bad, rest⟩
  · have hpre : pre = [] := by
      cases pre with
      | nil => rfl
      | cons b t => exact absurd hstep utf8Step_cons_ne_done
    subst hpre
    have hd := pyDecodeParts_done hstep
    rw [hd] at h
    injection h with h1 h2
    subst h1
    simp
  · have heqn := pyDecodeParts_char hstep
    rw [heqn] at h
    injection h with h1 h2
    have hrest : pyDecodeParts rest = ((pyDecodeParts rest).1, none) := by
      rw [← h2]
    have hlen := utf8Step_char_length hstep
    have ih := pyDecodeParts_ok_append (q := q) hrest
    have happ := utf8Step_char_append (q := q) hstep
    rw [pyDecodeParts_char happ, ih]
    subst h1
    simp
  · have heqn := pyDecodeParts_err hstep
    rw [heqn] at h
    injection h with h1 h2
    cases h2
termination_by pre.length
decreasing_by exact hlen

theorem robust_eq_none {bs s : List Nat} (h : pyDecodeParts bs = (s, none)) :
    robust_byte_decode bs = s := by
  conv_lhs => unfold robust_byte_decode
  split
  · next cps heq =>
    rw [heq] at h
    injection h with h1 h2
    rw [heq]
    simp [h1]
  · next cps bad rest heq =>
    rw [heq] at h
    injection h with h1 h2
    cases h2

theorem robust_eq_some {bs s bad rest : List Nat}
    (h : pyDecodeParts bs = (s, some (bad, rest))) :
    robust_byte_decode bs = s ++ hexEscape bad ++ robust_byte_decode rest := by
  conv_lhs => unfold robust_byte_decode
  split
  · next cps heq =>
    rw [heq] at h
    injection h with h1 h2
    cases h2
  · next cps bad' rest' heq =>
    rw [heq] at h
    injection h with h1 h2
    injection h2 with h3
    injection h3 with h4 h5
    subst h4; subst h5
    rw [heq]
    simp [h1]

theorem invalidStart_step {b : Nat} (suf : List Nat) (hb : invalidStartByte b) :
    utf8Step (b :: suf) = .err [b] suf := by
  have hnb : ¬ b < 0x80 := by
    rcases hb with ⟨h1, _⟩ | h1 <;> omega
  have hz : seqLen b = 0 := by
    unfold seqLen
    rcases hb with ⟨h1, h2⟩ | h1
    · rw [if_neg (by omega), if_pos (by omega)]
    · rw [if_neg (by omega), if_neg (by omega), if_neg (by omega), if_neg (by omega),
        if_neg (by omega)]
  simp [utf8Step, hnb, hz]

/-! ## Claim theorems C6, C7, C10 -/

/-- Claim C6: patching a netlist with a single variable assignment rewrites
exactly the lines that begin with name= (or global name=) to name=value
(global name=value), leaving every other line byte-identical; and a patch
mapping none of whose variables matches any line start writes the whole file
back byte-identical. -/
theorem modify_netlist_exact_rewrite (content : List Char) (n v : List Char)
    (vars : List (List Char × List Char))
    (hnm : ∀ l ∈ pyReadlines content, ∀ nv ∈ vars,
      ¬ varPat nv.1 true <+: l ∧ ¬ varPat nv.1 false <+: l) :
    modify_netlist [(n, v)] content
      = ((pyReadlines content).map (fun l =>
          if varPat n true <+: l then varLine (n, v) true
          else if varPat n false <+: l then varLine (n, v) false
          else l)).flatten
    ∧ modify_netlist vars content = content := by
  constructor
  · rfl
  · unfold modify_netlist
    have hmapid : (pyReadlines content).map (processLine vars) = pyReadlines content := by
      calc (pyReadlines content).map (processLine vars)
          = (pyReadlines content).map (fun l => l) :=
            List.map_congr_left (fun l hl => processLine_nomatch (hnm l hl))
        _ = pyReadlines content := List.map_id' _
    rw [hmapid, flatten_pyReadlines]

theorem modify_netlist_exact_rewrite_witness :
    (∀ l ∈ pyReadlines "Vgs=1\nfoo\n".toList, ∀ nv ∈ [("A".toList, "2".toList)],
      ¬ varPat nv.1 true <+: l ∧ ¬ varPat nv.1 false <+: l)
    ∧ (modify_netlist [("Vgs".toList, "1.5".toList)] "Vgs=1\nfoo\n".toList
        = ((pyReadlines "Vgs=1\nfoo\n".toList).map (fun l =>
            if varPat "Vgs".toList true <+: l then varLine ("Vgs".toList, "1.5".toList) true
            else if varPat "Vgs".toList false <+: l then varLine ("Vgs".toList, "1.5".toList) false
            else l)).flatten
      ∧ modify_netlist [("A".toList, "2".toList)] "Vgs=1\nfoo\n".toList = "Vgs=1\nfoo\n".toList) :=
  ⟨by decide,
   modify_netlist_exact_rewrite "Vgs=1\nfoo\n".toList "Vgs".toList "1.5".toList
     [("A".toList, "2".toList)] (by decide)⟩

/-- Claim C7: a byte string that is valid text around exactly one invalid
byte decodes, without raising, to the decoded prefix, then the hex escape of
exactly that byte, then the decoded remainder; and a fully decodable byte
string decodes to its ordinary decoding. -/
theorem robust_byte_decode_single_invalid :
    (∀ (pre suf : List Nat) (b : Nat) (s1 s2 : List Nat),
      pyDecodeParts pre = (s1, none) →
      pyDecodeParts suf = (s2, none) →
      invalidStartByte b →
      robust_byte_decode (pre ++ b :: suf) = s1 ++ hexEscape [b] ++ s2)
    ∧ (∀ (bs s : List Nat), pyDecodeParts bs = (s, none) → robust_byte_decode bs = s) := by
  constructor
  · intro pre suf b s1 s2 h1 h2 hb
    have hstep := invalidStart_step suf hb
    have hp : pyDecodeParts (b :: suf) = ([], some ([b], suf)) := pyDecodeParts_err hstep
    have happ := pyDecodeParts_ok_append (q := b :: suf) h1
    rw [hp] at happ
    have hform : pyDecodeParts (pre ++ b :: suf) = (s1, some ([b], suf)) := by
      rw [happ]; simp
    rw [robust_eq_some hform, robust_eq_none h2]
  · intro bs s h
    exact robust_eq_none h

theorem robust_byte_decode_single_invalid_witness :
    (pyDecodeParts [104] = ([104], none) ∧ pyDecodeParts [105] = ([105], none)
      ∧ invalidStartByte 255)
    ∧ robust_byte_decode ([104] ++ 255 :: [105]) = [104] ++ hexEscape [255] ++ [105] := by
  have hnil : pyDecodeParts ([] : List Nat) = ([], none) := pyDecodeParts_done (by decide)
  have h104 : pyDecodeParts [104] = ([104], none) := by
    rw [pyDecodeParts_char (show utf8Step [104] = .char 104 [] by decide), hnil]
  have h105 : pyDecodeParts [105] = ([105], none) := by
    rw [pyDecodeParts_char (show utf8Step [105] = .char 105 [] by decide), hnil]
  exact ⟨⟨h104, h105, by decide⟩,
    robust_byte_decode_single_invalid.1 [104] [105] 255 [104] [105] h104 h105 (by decide)⟩

/-- Claim C10: for a patch mapping whose values contain no newline character,
modify_netlist preserves the number of lines of the file and is idempotent:
applying it twice gives exactly the file produced by applying it once. -/
theorem modify_netlist_linecount_idem (vars : List (List Char × List Char))
    (content : List Char) (hv : ∀ nv ∈ vars, '\n' ∉ nv.2) :
    (pyReadlines (modify_netlist vars content)).length = (pyReadlines content).length
    ∧ modify_netlist vars (modify_netlist vars content) = modify_netlist vars content := by
  have hP : ProperLines (pyReadlines content) := properLines_pyReadlines content
  have hmap : ProperLines ((pyReadlines content).map (processLine vars)) :=
    properLines_map_processLine hv _ hP
  have hre : pyReadlines (((pyReadlines content).map (processLine vars)).flatten)
      = (pyReadlines content).map (processLine vars) :=
    pyReadlines_flatten_proper _ hmap
  constructor
  · unfold modify_netlist
    rw [hre, List.length_map]
  · unfold modify_netlist
    rw [hre, List.map_map]
    congr 1
    exact List.map_congr_left (fun l _ => processLine_idem vars l)

theorem modify_netlist_linecount_idem_witness :
    (∀ nv ∈ [("Vgs".toList, "1.5".toList)], '\n' ∉ nv.2)
    ∧ ((pyReadlines (modify_netlist [("Vgs".toList, "1.5".toList)] "Vgs=1\nglobal Vgs=2\nfoo".toList)).length
        = (pyReadlines "Vgs=1\nglobal Vgs=2\nfoo".toList).length
      ∧ modify_netlist [("Vgs".toList, "1.5".toList)]
          (modify_netlist [("Vgs".toList, "1.5".toList)] "Vgs=1\nglobal Vgs=2\nfoo".toList)
        = modify_netlist [("Vgs".toList, "1.5".toList)] "Vgs=1\nglobal Vgs=2\nfoo".toList) :=
  ⟨by decide,
   modify_netlist_linecount_idem [("Vgs".toList, "1.5".toList)]
     "Vgs=1\nglobal Vgs=2\nfoo".toList (by decide)⟩

/-! ## Lemmas about the sweep normalizer -/

theorem reverseOrder_map_getD {α : Type} (l : List α) (d : α) :
    (reverseOrder l.length).map (fun i => l.getD i d) = l.reverse := by
  induction l using List.reverseRecOn with
  | nil => rfl
  | append_singleton ys a ih =>
    unfold reverseOrder at ih ⊢
    simp only [List.length_append, List.length_singleton]
    rw [List.range_succ, List.reverse_append]
    simp only [List.reverse_singleton, List.singleton_append, List.map_cons]
    have h1 : (ys ++ [a]).getD ys.length d = a := by
      rw [List.getD_append_right ys [a] d ys.length (le_refl ys.length)]
      simp
    have h2 : (List.range ys.length).reverse.map (fun i => (ys ++ [a]).getD i d)
        = (List.range ys.length).reverse.map (fun i => ys.getD i d) := by
      apply List.map_congr_left
      intro i hi
      have hi2 : i < ys.length := List.mem_range.mp (List.mem_reverse.mp hi)
      exact List.getD_append ys [a] d i hi2
    rw [h1, h2, ih, List.reverse_append]
    simp

theorem reorder_levels_reverse (names : List String) (tuples : List (List Val))
    (h : ∀ t ∈ tuples, t.length = names.length) :
    reorder_levels (reverseOrder names.length) names tuples
      = (names.reverse, tuples.map List.reverse) := by
  unfold reorder_levels
  refine Prod.ext ?_ ?_
  · exact reverseOrder_map_getD names ""
  · apply List.map_congr_left
    intro t ht
    rw [← h t ht]
    exact reverseOrder_map_getD t Val.null

theorem foldl_max_all {c : Nat} (l : List Nat) (hall : ∀ x ∈ l, x = c) (hne : l ≠ []) :
    ∀ a, a ≤ c → l.foldl max a = c := by
  induction l with
  | nil => exact absurd rfl hne
  | cons x rest ih =>
    intro a ha
    have hx : x = c := hall x (List.mem_cons_self x rest)
    subst hx
    show rest.foldl max (max a x) = x
    cases hrest : rest with
    | nil => simp [Nat.max_eq_right ha]
    | cons y rest' =>
      rw [← hrest]
      exact ih (fun z hz => hall z (List.mem_cons_of_mem _ hz))
        (by rw [hrest]; simp) (max a x) (by simp [Nat.max_eq_right ha])

theorem fromTuplesList_all_tuples (ts : List (List Val)) (names : List String)
    (hne : ts ≠ []) (hlen : ∀ t ∈ ts, t.length = names.length) :
    fromTuplesList (ts.map Item.tup) names = .ok (names, ts) := by
  have htup : (ts.map Item.tup).map (fun it => match it with | Item.tup t => t | _ => []) = ts := by
    rw [List.map_map]
    exact List.map_id' ts
  unfold fromTuplesList
  rw [if_neg (by simp [List.isEmpty_iff, hne]), if_neg (by simp [Item.isTup])]
  simp only [htup]
  have hk : (ts.map List.length).foldl max 0 = names.length := by
    apply foldl_max_all (c := names.length)
    · intro x hx
      obtain ⟨t, ht, rfl⟩ := List.mem_map.mp hx
      exact hlen t ht
    · intro h0
      exact hne (List.map_eq_nil_iff.mp h0)
    · exact Nat.zero_le _
  rw [if_pos hk.symm]
  congr 1
  refine Prod.ext rfl ?_
  show ts.map _ = ts
  calc ts.map (fun t => t ++ List.replicate ((ts.map List.length).foldl max 0 - t.length) Val.null)
      = ts.map (fun t => t) := by
        apply List.map_congr_left
        intro t ht
        rw [hk, hlen t ht]
        simp
    _ = ts := List.map_id' ts

theorem normalize_tuple_list (ts : List (List Val)) (names : List String)
    (hne : ts ≠ []) (hlen : ∀ t ∈ ts, t.length = names.length) :
    normalizeSweepVars (.iter (ts.map Item.tup)) (.list names)
      = .ok (names.reverse, ts.map List.reverse) := by
  cases ts with
  | nil => exact absurd rfl hne
  | cons t0 ts' =>
    simp only [normalizeSweepVars]
    rw [if_neg (by simp [Item.isOther])]
    show (match fromTuplesList ((t0 :: ts').map Item.tup) names with
      | Except.error e => Except.error e
      | Except.ok p => Except.ok (reorder_levels (reverseOrder p.1.length) p.1 p.2)) = _
    rw [fromTuplesList_all_tuples _ _ hne hlen]
    show Except.ok (reorder_levels (reverseOrder names.length) names (t0 :: ts')) = _
    rw [reorder_levels_reverse names _ hlen]

/-- The wrapped one-tuple value for one item in the single-name branch. -/
theorem normalize_scalar_head (items : List Item) (v : Val) (s : String)
    (hh : items.head? = some (.scalar v)) (hno : ∀ it ∈ items, it.isOther = false) :
    normalizeSweepVars (.iter items) (.str s)
      = .ok ([s], items.map (fun it => match it with
          | Item.scalar w => [w] | Item.tup t => [Val.tup t] | Item.other => [])) := by
  cases items with
  | nil => cases hh
  | cons it0 rest =>
    have hv : it0 = .scalar v := by
      simp at hh
      exact hh
    subst hv
    simp only [normalizeSweepVars]
    rw [if_neg (by
      intro hany
      obtain ⟨it, hmem, hoth⟩ := List.any_eq_true.mp hany
      rw [hno it hmem] at hoth
      cases hoth)]
    show (match fromTuplesList ((Item.scalar v :: rest).map wrapItem) [s] with
      | Except.error e => Except.error e
      | Except.ok p => Except.ok (reorder_levels (reverseOrder p.1.length) p.1 p.2)) = _
    have hwrap : fromTuplesList ((Item.scalar v :: rest).map wrapItem) [s]
        = .ok ([s], (Item.scalar v :: rest).map (fun it => match it with
            | Item.scalar w => [w] | Item.tup t => [Val.tup t] | Item.other => [])) := by
      have hexp : (Item.scalar v :: rest).map wrapItem
          = ((Item.scalar v :: rest).map (fun it => match it with
              | Item.scalar w => [w] | Item.tup t => [Val.tup t] | Item.other => [])).map Item.tup := by
        rw [List.map_map]
        apply List.map_congr_left
        intro it hmem
        cases it with
        | scalar w => rfl
        | tup t => rfl
        | other =>
          have := hno _ hmem
          simp [Item.isOther] at this
      rw [hexp]
      apply fromTuplesList_all_tuples
      · simp
      · intro t ht
        simp only [List.map_cons, List.length_singleton]
        rcases List.mem_map.mp ht with ⟨it, hit, rfl⟩
        cases it with
        | scalar w => simp
        | tup t' => simp
        | other =>
          have := hno _ hit
          simp [Item.isOther] at this
    rw [hwrap]
    show Except.ok (reorder_levels (reverseOrder [s].length) [s] _) = _
    rw [reorder_levels_reverse [s] _ (by
      intro t ht
      rcases List.mem_map.mp ht with ⟨it, hit, rfl⟩
      cases it with
      | scalar w => simp
      | tup t' => simp
      | other =>
        have := hno _ hit
        simp [Item.isOther] at this)]
    congr 1
    refine Prod.ext rfl ?_
    show ((Item.scalar v :: rest).map (fun it => match it with
        | Item.scalar w => [w] | Item.tup t => [Val.tup t] | Item.other => [])).map List.reverse
      = (Item.scalar v :: rest).map (fun it => match it with
        | Item.scalar w => [w] | Item.tup t => [Val.tup t] | Item.other => [])
    rw [List.map_map]
    apply List.map_congr_left
    intro it _
    cases it <;> rfl

/-- C1: for each of the three valid sweep-specification shapes — a pre-built
fully-named multi-axis index, an explicit nonempty list of same-length tuples
with one name per position, and a nonempty scalar list with a single string
axis name — the normalizer produces the index whose names are the exact
reverse of the declared order, with every tuple correspondingly reversed, and
whose tuple count equals the input tuple count (resp. the scalar count). -/
theorem normalizer_reverses
    (nms : List String) (tuples : List (List Val)) (vn : VarNamesArg)
    (hmt : ∀ t ∈ tuples, t.length = nms.length)
    (names2 : List String) (ts : List (List Val))
    (hne2 : ts ≠ []) (hlen2 : ∀ t ∈ ts, t.length = names2.length)
    (vs : List Val) (s : String) (hvs : vs ≠ []) :
    (normalizeSweepVars (.multiIndex (nms.map some) tuples) vn
        = .ok (nms.reverse, tuples.map List.reverse)
      ∧ (tuples.map List.reverse).length = tuples.length)
    ∧ (normalizeSweepVars (.iter (ts.map Item.tup)) (.list names2)
        = .ok (names2.reverse, ts.map List.reverse)
      ∧ (ts.map List.reverse).length = ts.length)
    ∧ (normalizeSweepVars (.iter (vs.map Item.scalar)) (.str s)
        = .ok ([s], vs.map (fun v => [v]))
      ∧ (vs.map (fun v => [v])).length = vs.length) := by
  refine ⟨⟨?_, List.length_map _ _⟩, ⟨?_, List.length_map _ _⟩, ⟨?_, List.length_map _ _⟩⟩
  · simp only [normalizeSweepVars]
    rw [if_neg (by simp)]
    have hn : (nms.map some).map (fun o => o.getD "") = nms := by
      rw [List.map_map]; exact List.map_id' nms
    rw [hn]
    rw [reorder_levels_reverse nms tuples hmt]
  · exact normalize_tuple_list ts names2 hne2 hlen2
  · cases vs with
    | nil => exact absurd rfl hvs
    | cons v vs' =>
      rw [normalize_scalar_head _ v s (by simp) (by
        intro it hmem
        rcases List.mem_map.mp hmem with ⟨w, _, rfl⟩
        rfl)]
      have hmm : ((v :: vs').map Item.scalar).map (fun it => match it with
          | Item.scalar w => [w] | Item.tup t => [Val.tup t] | Item.other => [])
        = (v :: vs').map (fun w => [w]) := by
        rw [List.map_map]
        apply List.map_congr_left
        intro w _
        rfl
      rw [hmm]

/-- Witness for C1 at concrete inputs from each of the three branches. -/
theorem normalizer_reverses_witness :
    (normalizeSweepVars (SweepVars.multiIndex [some "a", some "b"] [[Val.i 1, Val.i 2]])
        VarNamesArg.none
      = Except.ok (["b", "a"], [[Val.i 2, Val.i 1]]))
    ∧ (normalizeSweepVars (SweepVars.iter [Item.tup [Val.i 3, Val.i 4]])
        (VarNamesArg.list ["x", "y"])
      = Except.ok (["y", "x"], [[Val.i 4, Val.i 3]]))
    ∧ (normalizeSweepVars (SweepVars.iter [Item.scalar (Val.i 5)]) (VarNamesArg.str "v")
      = Except.ok (["v"], [[Val.i 5]])) := by
  obtain ⟨⟨h1, _⟩, ⟨h2, _⟩, ⟨h3, _⟩⟩ :=
    normalizer_reverses ["a", "b"] [[Val.i 1, Val.i 2]] VarNamesArg.none (by decide)
      ["x", "y"] [[Val.i 3, Val.i 4]] (by decide) (by decide)
      [Val.i 5] "v" (by decide)
  exact ⟨h1, h2, h3⟩

/-- C8 counterexample: two inputs the claim calls invalid are accepted by the
code. A sequence whose first element is a scalar but which also contains a
tuple is wrapped elementwise into one-tuples and accepted (the element-type
dispatch looks only at vars[0]); and a tuple sequence with inconsistent
tuple lengths is not rejected — pandas pads the short tuples with missing
values to the longest length. -/
theorem normalizer_mixed_and_ragged_accepted :
    (normalizeSweepVars (SweepVars.iter [Item.scalar (Val.i 3), Item.tup [Val.i 1, Val.i 2]])
        (VarNamesArg.str "x")
      = Except.ok (["x"], [[Val.i 3], [Val.tup [Val.i 1, Val.i 2]]]))
    ∧ (normalizeSweepVars (SweepVars.iter [Item.tup [Val.i 1], Item.tup [Val.i 2, Val.i 3]])
        (VarNamesArg.list ["a", "b"])
      = Except.ok (["b", "a"], [[Val.null, Val.i 1], [Val.i 3, Val.i 2]])) := by
  constructor <;> rfl

/-- C8 (amended): the validation errors the normalizer actually raises: a
pre-built index with a missing (None) level name is rejected; a tuple-first
sequence without axis names is rejected; a scalar-first sequence whose axis
name argument is not a single string (a list, or absent) is rejected; an
element that is neither iterable nor numeric is rejected; a non-iterable
vars value is rejected; and a tuple-first sequence that also contains a bare
scalar fails with a TypeError from the index constructor (not with the
normalizer instance check). Scalar-first mixed sequences and ragged tuple
lengths are not rejected. -/
theorem normalizer_validation_errors
    (names : List (Option String)) (tuples : List (List Val)) (vn1 : VarNamesArg)
    (hnone : Option.none ∈ names)
    (items : List Item) (t0 : List Val) (hh : items.head? = some (.tup t0))
    (items2 : List Item) (v0 : Val) (hh2 : items2.head? = some (.scalar v0))
    (l2 : List String)
    (items3 : List Item) (hoth : Item.other ∈ items3) (vn3 : VarNamesArg)
    (vn4 : VarNamesArg)
    (itemsM : List Item) (tM : List Val) (hhM : itemsM.head? = some (.tup tM))
    (vM : Val) (hvM : Item.scalar vM ∈ itemsM)
    (hnoM : ∀ it ∈ itemsM, it.isOther = false) (lM : List String) :
    normalizeSweepVars (.multiIndex names tuples) vn1 = .error .valueError
    ∧ normalizeSweepVars (.iter items) .none = .error .valueError
    ∧ normalizeSweepVars (.iter items2) (.list l2) = .error .valueError
    ∧ normalizeSweepVars (.iter items2) .none = .error .valueError
    ∧ normalizeSweepVars (.iter items3) vn3 = .error .valueError
    ∧ normalizeSweepVars .notIterable vn4 = .error .valueError
    ∧ normalizeSweepVars (.iter itemsM) (.list lM) = .error .typeError := by
  have hany3 : items3.any (fun it => it.isOther) = true :=
    List.any_eq_true.mpr ⟨Item.other, hoth, rfl⟩
  have hanyM : itemsM.any (fun it => it.isOther) = false := by
    rw [← Bool.not_eq_true, List.any_eq_true]
    rintro ⟨it, hmem, hoth'⟩
    rw [hnoM it hmem] at hoth'
    cases hoth'
  refine ⟨?_, ?_, ?_, ?_, ?_, rfl, ?_⟩
  · simp only [normalizeSweepVars]
    rw [if_pos (List.any_eq_true.mpr ⟨Option.none, hnone, rfl⟩)]
  · by_cases hA : items.any (fun it => it.isOther) = true
    · simp only [normalizeSweepVars]
      rw [if_pos hA]
    · cases items with
      | nil => cases hh
      | cons it0 rest =>
        have : it0 = .tup t0 := by simpa using hh
        subst this
        simp only [normalizeSweepVars]
        rw [if_neg hA]
        rfl
  · by_cases hA : items2.any (fun it => it.isOther) = true
    · simp only [normalizeSweepVars]
      rw [if_pos hA]
    · cases items2 with
      | nil => cases hh2
      | cons it0 rest =>
        have : it0 = .scalar v0 := by simpa using hh2
        subst this
        simp only [normalizeSweepVars]
        rw [if_neg hA]
        rfl
  · by_cases hA : items2.any (fun it => it.isOther) = true
    · simp only [normalizeSweepVars]
      rw [if_pos hA]
    · cases items2 with
      | nil => cases hh2
      | cons it0 rest =>
        have : it0 = .scalar v0 := by simpa using hh2
        subst this
        simp only [normalizeSweepVars]
        rw [if_neg hA]
        rfl
  · simp only [normalizeSweepVars]
    rw [if_pos hany3]
  · cases itemsM with
    | nil => cases hhM
    | cons it0 rest =>
      have : it0 = .tup tM := by simpa using hhM
      subst this
      simp only [normalizeSweepVars]
      rw [if_neg (by rw [hanyM]; exact Bool.false_ne_true)]
      show (match fromTuplesList (Item.tup tM :: rest) lM with
        | Except.error e => Except.error e
        | Except.ok p => Except.ok (reorder_levels (reverseOrder p.1.length) p.1 p.2)) = _
      have hft : fromTuplesList (Item.tup tM :: rest) lM = .error .typeError := by
        unfold fromTuplesList
        rw [if_neg (by simp)]
        rw [if_pos (List.any_eq_true.mpr ⟨Item.scalar vM, hvM, by simp [Item.isTup]⟩)]
      rw [hft]

/-- Witness for C8 (amended) at concrete inputs for each error branch. -/
theorem normalizer_validation_errors_witness :
    normalizeSweepVars (SweepVars.multiIndex [Option.none] []) VarNamesArg.none
      = Except.error PyErr.valueError
    ∧ normalizeSweepVars (SweepVars.iter [Item.tup [Val.i 1]]) VarNamesArg.none
      = Except.error PyErr.valueError
    ∧ normalizeSweepVars (SweepVars.iter [Item.scalar (Val.i 1)]) (VarNamesArg.list ["a"])
      = Except.error PyErr.valueError
    ∧ normalizeSweepVars (SweepVars.iter [Item.scalar (Val.i 1)]) VarNamesArg.none
      = Except.error PyErr.valueError
    ∧ normalizeSweepVars (SweepVars.iter [Item.other]) (VarNamesArg.str "a")
      = Except.error PyErr.valueError
    ∧ normalizeSweepVars SweepVars.notIterable (VarNamesArg.str "a")
      = Except.error PyErr.valueError
    ∧ normalizeSweepVars (SweepVars.iter [Item.tup [Val.i 1], Item.scalar (Val.i 2)])
        (VarNamesArg.list ["a"])
      = Except.error PyErr.typeError :=
  normalizer_validation_errors [Option.none] [] VarNamesArg.none (by decide)
    [Item.tup [Val.i 1]] [Val.i 1] (by decide)
    [Item.scalar (Val.i 1)] (Val.i 1) (by decide) ["a"]
    [Item.other] (by decide) (VarNamesArg.str "a")
    (VarNamesArg.str "a")
    [Item.tup [Val.i 1], Item.scalar (Val.i 2)] [Val.i 1] (by decide)
    (Val.i 2) (by decide) (by decide) ["a"]

/-- C4: when the expected output dataset file is absent the worker returns
(rather than raises) an outcome with a read-error record naming the missing
output and carrying no result blocks; and when the file exists but reading
it raises one of the two recognised parse-failure classes, the worker
likewise returns an outcome with a read-error record and no blocks. -/
theorem worker_error_returns {α : Type} (vars : List (String × Val)) (p : String)
    (res : Except ReadErrKind (List (RawBlock α))) (m1 m2 : String) :
    (simWorkerFcn vars p false res
      = .ok { readError := some ["Output File not found in expected location " ++ p,
                "No output file generated: Please check workspace settings, available license count and simulator convergence",
                "FileNotFoundError",
                "Output File not found in expected location " ++ p],
              data := Option.none, metadata := Option.none })
    ∧ (simWorkerFcn (α := α) vars p true (.error (.childProcessError m1))
      = .ok { readError := some ["Output File unreadable: Please check available license count and simulator convergence",
                "ChildProcessError", m1],
              data := Option.none, metadata := Option.none })
    ∧ (simWorkerFcn (α := α) vars p true (.error (.stopIteration m2))
      = .ok { readError := some ["Output File unreadable: Please check available license count and simulator convergence",
                "StopIteration", m2],
              data := Option.none, metadata := Option.none }) :=
  ⟨rfl, rfl, rfl⟩

/-- C5: disproved as stated. print_summary folds float(...) over the Total
CPU time field of every run before printing anything, and a run that failed
(read-error recorded, no output parsed) has no such field in its log, so the
extraction yields None and float(None) raises TypeError: a sweep with one
clean run and one failed run crashes in the summary instead of completing
with an itemised report. -/
theorem sweep_failure_summary_crashes :
    printSummary (processWorkerLogs
      [ { workerName := "w1", returnCode := 0,
          logStr := "Total CPU time = 12.5 seconds.\n".toList, errStr := [],
          readError := Option.none },
        { workerName := "w2", returnCode := 1,
          logStr := [], errStr := [],
          readError := some ["Output File not found in expected location p",
            "No output file generated: Please check workspace settings, available license count and simulator convergence",
            "FileNotFoundError",
            "Output File not found in expected location p"] } ])
      = .error .typeError := by
  rfl

/-- The list positions a set call does not touch keep their value. -/
theorem get_set_other {α : Type} (l : List α) (i k : Nat) (c : α) (hk : k ≠ i) :
    (l.set i c).get? k = l.get? k := by
  rw [List.get?_eq_getElem?, List.get?_eq_getElem?]
  exact List.getElem?_set_ne (fun h => hk h.symm)

/-- An index that looks something up successfully is in range. -/
theorem get_some_lt {α : Type} (l : List α) (i : Nat) (a : α) (h : l.get? i = some a) :
    i < l.length := by
  by_contra hge
  rw [List.get?_eq_getElem?, List.getElem?_eq_none (Nat.le_of_not_lt hge)] at h
  cases h

/-- Positionwise behaviour of the inner appending loop: when every DataFrame
position of the incoming block list faces a DataFrame in the accumulated
list, the loop succeeds; incoming DataFrame blocks are concatenated onto the
same position (index level names meeting pointwise, kept only where equal),
incoming non-DataFrame blocks leave their position untouched, and positions
beyond the incoming list are untouched. -/
theorem appendWorkerBlocks_spec {α : Type} (blocks : List (Blk α)) :
    ∀ (cur : List (Blk α)) (i : Nat),
    (∀ j (hj : j < blocks.length), (blocks.get ⟨j, hj⟩).isDF = true →
       ∃ n r, cur.get? (i + j) = some (Blk.df n r)) →
    ∃ cur', appendWorkerBlocks cur i blocks = .ok cur'
      ∧ cur'.length = cur.length
      ∧ (∀ k, k < i ∨ i + blocks.length ≤ k → cur'.get? k = cur.get? k)
      ∧ (∀ j (hj : j < blocks.length),
          match blocks.get ⟨j, hj⟩ with
          | .plain _ _ => cur'.get? (i + j) = cur.get? (i + j)
          | .df n2 r2 => ∀ n1 r1, cur.get? (i + j) = some (Blk.df n1 r1) →
              cur'.get? (i + j) = some (Blk.df (concatNames n1 n2) (r1 ++ r2))) := by
  induction blocks with
  | nil =>
    intro cur i _
    exact ⟨cur, rfl, rfl, fun k _ => rfl, fun j hj => absurd hj (by simp)⟩
  | cons blk rest ih =>
    intro cur i hcomp
    cases blk with
    | plain nm rs =>
      obtain ⟨cur', hrun, hlen, hunt, hpos⟩ := ih cur (i + 1) (fun j hj hdf => by
        obtain ⟨n, r, hnr⟩ := hcomp (j + 1) (Nat.succ_lt_succ hj) hdf
        refine ⟨n, r, ?_⟩
        have hidx : i + (j + 1) = i + 1 + j := by omega
        rw [hidx] at hnr
        exact hnr)
      refine ⟨cur', hrun, hlen, ?_, ?_⟩
      · intro k hk
        have hk2 : k < i ∨ i + (rest.length + 1) ≤ k := by simpa using hk
        exact hunt k (by omega)
      · intro j hj
        match j, hj with
        | 0, hj =>
          show cur'.get? (i + 0) = cur.get? (i + 0)
          exact hunt i (Or.inl (Nat.lt_succ_self i))
        | j' + 1, hj =>
          have hj' : j' < rest.length := Nat.lt_of_succ_lt_succ hj
          have := hpos j' hj'
          have hidx : i + 1 + j' = i + (j' + 1) := by omega
          rw [hidx] at this
          exact this
    | df n2 r2 =>
      obtain ⟨n1, r1, hcur⟩ := hcomp 0 (Nat.succ_pos _) rfl
      rw [Nat.add_zero] at hcur
      have hlt : i < cur.length := get_some_lt cur i _ hcur
      obtain ⟨cur', hrun, hlen, hunt, hpos⟩ :=
        ih (cur.set i (Blk.df (concatNames n1 n2) (r1 ++ r2))) (i + 1) (fun j hj hdf => by
          obtain ⟨n, r, hnr⟩ := hcomp (j + 1) (Nat.succ_lt_succ hj) hdf
          refine ⟨n, r, ?_⟩
          rw [get_set_other cur i (i + 1 + j) _ (by omega)]
          have hidx : i + (j + 1) = i + 1 + j := by omega
          rw [hidx] at hnr
          exact hnr)
      have hrun2 : appendWorkerBlocks cur i (Blk.df n2 r2 :: rest) = .ok cur' := by
        show (match cur.get? i with
          | some old =>
            match pdConcat old (Blk.df n2 r2) with
            | .ok c => appendWorkerBlocks (cur.set i c) (i + 1) rest
            | .error e => .error e
          | Option.none => .error .indexError) = .ok cur'
        rw [hcur]
        exact hrun
      have hset : (cur.set i (Blk.df (concatNames n1 n2) (r1 ++ r2))).get? i
          = some (Blk.df (concatNames n1 n2) (r1 ++ r2)) := by
        rw [List.get?_eq_getElem?]
        exact List.getElem?_set_self (by simpa using hlt)
      refine ⟨cur', hrun2, by rw [hlen, List.length_set], ?_, ?_⟩
      · intro k hk
        have hk2 : k < i ∨ i + (rest.length + 1) ≤ k := by simpa using hk
        rw [hunt k (by omega), get_set_other cur i k _ (by omega)]
      · intro j hj
        match j, hj with
        | 0, hj =>
          show ∀ m1 s1, cur.get? (i + 0) = some (Blk.df m1 s1) →
            cur'.get? (i + 0) = some (Blk.df (concatNames m1 n2) (s1 ++ r2))
          intro m1 s1 hm
          rw [Nat.add_zero] at hm ⊢
          rw [hcur] at hm
          cases hm
          rw [hunt i (Or.inl (Nat.lt_succ_self i))]
          exact hset
        | j' + 1, hj =>
          have hj' : j' < rest.length := Nat.lt_of_succ_lt_succ hj
          have hthis := hpos j' hj'
          have hidx : i + 1 + j' = i + (j' + 1) := by omega
          show (match rest.get ⟨j', hj'⟩ with
            | Blk.plain _ _ => cur'.get? (i + (j' + 1)) = cur.get? (i + (j' + 1))
            | Blk.df m2 s2 => ∀ m1 s1, cur.get? (i + (j' + 1)) = some (Blk.df m1 s1) →
                cur'.get? (i + (j' + 1)) = some (Blk.df (concatNames m1 m2) (s1 ++ s2)))
          cases hg : rest.get ⟨j', hj'⟩ with
          | df n3 r3 =>
            rw [hg] at hthis
            intro m1 s1 hm
            rw [← hidx] at hm ⊢
            refine hthis m1 s1 ?_
            rw [get_set_other cur i (i + 1 + j') _ (by omega)]
            exact hm
          | plain nm3 rs3 =>
            rw [hg] at hthis
            rw [← hidx]
            rw [hthis, get_set_other cur i (i + 1 + j') _ (by omega)]

/-- C3 counterexample: the merge loop checks only that a later block is a
pandas DataFrame, not that it has the same indexed-table shape as the
template block: two runs whose position-0 blocks carry different index level
names are concatenated anyway (pandas keeps a level name only where both
agree), instead of the mismatched block being skipped. -/
theorem merge_concatenates_mismatched_blocks :
    collectOutcomes
      [ ({ data := some [Blk.df [some "f"] [([Val.i 1], (10 : Int))]],
           metadata := ["m1"] } : RunOutcome Int String),
        { data := some [Blk.df [some "g"] [([Val.i 2], (20 : Int))]],
           metadata := ["m2"] } ]
      = .ok ([Blk.df [Option.none] [([Val.i 1], 10), ([Val.i 2], 20)]], ["m1"])
    ∧ ([some "f"] : List (Option String)) ≠ [some "g"] := by
  exact ⟨rfl, by decide⟩

/-- C3 (amended): the first run outcome with result blocks installs its block
list and metadata as the template (runs without data are skipped, plain
blocks are emitted once, from the template); a later run's block at the same
position is concatenated onto the template block whenever it is a DataFrame
facing a DataFrame — regardless of index level names, which are kept
pointwise only where both runs agree — while its non-DataFrame blocks leave
the template position untouched. -/
theorem merge_template_append {α μ : Type} (pre : List (RunOutcome α μ))
    (hpre : ∀ o ∈ pre, o.data = Option.none)
    (tmpl : List (Blk α)) (md : List μ) (blocks : List (Blk α)) (md2 : List μ)
    (hcomp : ∀ j (hj : j < blocks.length), (blocks.get ⟨j, hj⟩).isDF = true →
       ∃ n r, tmpl.get? j = some (Blk.df n r)) :
    (collectOutcomes (pre ++ [{ data := some tmpl, metadata := md }]) = .ok (tmpl, md))
    ∧ ∃ cur',
      collectOutcomes (pre ++ [{ data := some tmpl, metadata := md },
          { data := some blocks, metadata := md2 }])
        = .ok (cur', md)
      ∧ cur'.length = tmpl.length
      ∧ (∀ k, blocks.length ≤ k → cur'.get? k = tmpl.get? k)
      ∧ (∀ j (hj : j < blocks.length),
          match blocks.get ⟨j, hj⟩ with
          | .plain _ _ => cur'.get? j = tmpl.get? j
          | .df n2 r2 => ∀ n1 r1, tmpl.get? j = some (Blk.df n1 r1) →
              cur'.get? j = some (Blk.df (concatNames n1 n2) (r1 ++ r2))) := by
  have hfold : ∀ st : Bool × List (Blk α) × List μ,
      pre.foldlM collectStep st = .ok st := by
    intro st
    induction pre with
    | nil => rfl
    | cons o pre' ih =>
      have ho := hpre o (List.mem_cons_self o pre')
      show (collectStep st o) >>= _ = _
      have hstep : collectStep st o = .ok st := by
        unfold collectStep
        rw [ho]
      rw [hstep]
      exact ih (fun o' ho' => hpre o' (List.mem_cons_of_mem o ho'))
  obtain ⟨cur', hrun, hlen, hunt, hpos⟩ :=
    appendWorkerBlocks_spec blocks tmpl 0 (fun j hj hdf => by
      obtain ⟨n, r, hnr⟩ := hcomp j hj hdf
      exact ⟨n, r, by rw [Nat.zero_add]; exact hnr⟩)
  constructor
  · unfold collectOutcomes
    rw [List.foldlM_append, hfold]
    rfl
  · refine ⟨cur', ?_, hlen, ?_, ?_⟩
    · have h2 : collectStep (false, tmpl, md)
          { data := some (α := List (Blk α)) blocks, metadata := md2 }
          = Except.ok (false, cur', md) := by
        unfold collectStep
        show (match appendWorkerBlocks tmpl 0 blocks with
          | Except.ok cur => Except.ok (false, cur, md)
          | Except.error e => Except.error e) = Except.ok (false, cur', md)
        rw [hrun]
      have h1 : (([{ data := some tmpl, metadata := md },
            { data := some blocks, metadata := md2 }] :
            List (RunOutcome α μ)).foldlM collectStep (true, [], []))
          = Except.ok (false, cur', md) := by
        show (collectStep (true, ([] : List (Blk α)), ([] : List μ))
              { data := some tmpl, metadata := md } >>=
            fun st => collectStep st { data := some blocks, metadata := md2 } >>=
              fun st2 => pure st2)
          = Except.ok (false, cur', md)
        have h0 : collectStep (true, ([] : List (Blk α)), ([] : List μ))
            { data := some tmpl, metadata := md } = Except.ok (false, tmpl, md) := rfl
        rw [h0]
        show (collectStep (false, tmpl, md) { data := some blocks, metadata := md2 } >>=
            fun st2 => pure st2) = Except.ok (false, cur', md)
        rw [h2]
        rfl
      unfold collectOutcomes
      rw [List.foldlM_append, hfold]
      show (match (([{ data := some tmpl, metadata := md },
            { data := some blocks, metadata := md2 }] :
            List (RunOutcome α μ)).foldlM collectStep (true, [], [])) with
        | Except.ok st => Except.ok (st.2.1, st.2.2)
        | Except.error e => Except.error e) = Except.ok (cur', md)
      rw [h1]
    · intro k hk
      exact hunt k (Or.inr (by omega))
    · intro j hj
      have hthis := hpos j hj
      show (match blocks.get ⟨j, hj⟩ with
        | Blk.plain _ _ => cur'.get? j = tmpl.get? j
        | Blk.df m2 s2 => ∀ m1 s1, tmpl.get? j = some (Blk.df m1 s1) →
            cur'.get? j = some (Blk.df (concatNames m1 m2) (s1 ++ s2)))
      cases hg : blocks.get ⟨j, hj⟩ with
      | df n2 r2 =>
        rw [hg] at hthis
        intro n1 r1 h1
        have := hthis n1 r1 (by rw [Nat.zero_add]; exact h1)
        rwa [Nat.zero_add] at this
      | plain nm rs =>
        rw [hg] at hthis
        rwa [Nat.zero_add] at hthis

/-- Witness for C3 (amended) at a concrete two-run merge with a skipped
no-data run, a DataFrame position and a plain position. -/
theorem merge_template_append_witness :
    collectOutcomes ([({ data := Option.none, metadata := [] } : RunOutcome Int String)]
        ++ [{ data := some [Blk.df [some "x"] [([Val.i 1], (1 : Int))],
                Blk.plain "s" [([], 2)]], metadata := ["m"] }])
      = .ok ([Blk.df [some "x"] [([Val.i 1], 1)], Blk.plain "s" [([], 2)]], ["m"]) :=
  (merge_template_append [{ data := Option.none, metadata := [] }]
    (fun o ho => by
      rw [List.mem_singleton] at ho
      rw [ho])
    [Blk.df [some "x"] [([Val.i 1], (1 : Int))], Blk.plain "s" [([], 2)]] ["m"]
    [Blk.df [some "x"] [([Val.i 2], (3 : Int))]] ["m2"]
    (fun j hj => by
      match j, hj with
      | 0, _ => exact fun _ => ⟨[some "x"], [([Val.i 1], 1)], rfl⟩)).1

/-! ## Lemmas about the log summary grouping -/

theorem mem_foldl_insert {α : Type} [DecidableEq α] (l : List α) :
    ∀ (acc : List α) (a : α),
    (a ∈ l.foldl (fun acc v => if v ∈ acc then acc else acc ++ [v]) acc)
      ↔ a ∈ acc ∨ a ∈ l := by
  induction l with
  | nil =>
    intro acc a
    simp
  | cons v t ih =>
    intro acc a
    rw [List.foldl_cons, ih]
    by_cases hv : v ∈ acc
    · rw [if_pos hv]
      constructor
      · rintro (h | h)
        · exact Or.inl h
        · exact Or.inr (List.mem_cons_of_mem v h)
      · rintro (h | h)
        · exact Or.inl h
        · rcases List.mem_cons.mp h with rfl | h
          · exact Or.inl hv
          · exact Or.inr h
    · rw [if_neg hv]
      simp only [List.mem_append, List.mem_singleton, List.mem_cons]
      tauto

theorem nodup_foldl_insert {α : Type} [DecidableEq α] (l : List α) :
    ∀ acc : List α, acc.Nodup →
    (l.foldl (fun acc v => if v ∈ acc then acc else acc ++ [v]) acc).Nodup := by
  induction l with
  | nil =>
    intro acc h
    exact h
  | cons v t ih =>
    intro acc h
    rw [List.foldl_cons]
    by_cases hv : v ∈ acc
    · rw [if_pos hv]
      exact ih acc h
    · rw [if_neg hv]
      refine ih _ ?_
      rw [List.nodup_append]
      exact ⟨h, List.nodup_singleton v,
        fun a ha hav => hv ((List.mem_singleton.mp hav) ▸ ha)⟩

theorem foldl_insert_nodup {α : Type} [DecidableEq α] (ws : List α) :
    ws.Nodup → ∀ acc : List α,
    ws.foldl (fun acc v => if v ∈ acc then acc else acc ++ [v]) acc
      = acc ++ ws.filter (fun v => decide (v ∉ acc)) := by
  induction ws with
  | nil =>
    intro _ acc
    simp
  | cons w t ih =>
    intro hnd acc
    have hw : w ∉ t := (List.nodup_cons.mp hnd).1
    have hnd2 : t.Nodup := (List.nodup_cons.mp hnd).2
    rw [List.foldl_cons]
    by_cases hv : w ∈ acc
    · rw [if_pos hv, ih hnd2 acc, List.filter_cons, if_neg (by simp [hv])]
    · rw [if_neg hv, ih hnd2 (acc ++ [w]), List.filter_cons, if_pos (by simp [hv]),
        List.append_assoc]
      congr 1
      show w :: List.filter (fun v => decide (v ∉ acc ++ [w])) t
        = w :: List.filter (fun v => decide (v ∉ acc)) t
      congr 1
      apply List.filter_congr
      intro a ha
      have haw : a ≠ w := fun h => hw (h ▸ ha)
      rw [decide_eq_decide]
      simp [List.mem_append, haw]

/-- Key membership as a Bool over a list of values. -/
theorem any_eq_decide_mem {α : Type} [DecidableEq α] (l : List α) (w : α) :
    l.any (fun m => decide (m = w)) = decide (w ∈ l) := by
  induction l with
  | nil => rfl
  | cons v t ih =>
    rw [List.any_cons, ih]
    by_cases hvw : v = w
    · subst hvw
      simp
    · have hwv : ¬ w = v := fun h => hvw h.symm
      simp [hvw, hwv, List.mem_cons]

/-- Key lookup in an association list built by mapping a key-preserving
entry constructor over a key list. -/
theorem any_key_of_map_pair (g : String → String × List String)
    (hg : ∀ m, (g m).1 = m) (M : List String) (v : String) :
    (M.map g).any (fun p => decide (p.1 = v)) = decide (v ∈ M) := by
  induction M with
  | nil => rfl
  | cons m t ih =>
    rw [List.map_cons, List.any_cons, ih, hg m]
    by_cases hmv : m = v
    · subst hmv
      simp
    · have hvm : ¬ v = m := fun h => hmv h.symm
      simp [hmv, hvm, List.mem_cons]

/-- A map that does not touch the keys does not change key lookups. -/
theorem any_key_map (f : String × List String → String × List String)
    (hf : ∀ p, (f p).1 = p.1) (acc : List (String × List String)) (v : String) :
    (acc.map f).any (fun p => decide (p.1 = v)) = acc.any (fun p => decide (p.1 = v)) := by
  induction acc with
  | nil => rfl
  | cons p t ih =>
    simp only [List.map_cons, List.any_cons, hf p, ih]

/-- Folding one run's (duplicate-free) message list into the accumulator
appends the run name to every present key the run exhibits and adds a fresh
singleton entry, in message order, for every exhibited key that is absent. -/
theorem foldl_addEntry (name : String) (ws : List String) :
    ws.Nodup → ∀ acc : List (String × List String),
    ws.foldl (fun a w => addEntry a w name) acc
      = acc.map (bumpIf ws name)
        ++ (ws.filter (fun w => !(acc.any (fun p => decide (p.1 = w))))).map
            (fun w => (w, [name])) := by
  induction ws with
  | nil =>
    intro _ acc
    simp only [List.foldl_nil, List.filter_nil, List.map_nil, List.append_nil]
    symm
    calc acc.map (bumpIf [] name) = acc.map (fun p => p) :=
          List.map_congr_left (fun p _ => by simp [bumpIf])
      _ = acc := List.map_id' acc
  | cons w t ih =>
    intro hnd acc
    have hw : w ∉ t := (List.nodup_cons.mp hnd).1
    have hnd2 : t.Nodup := (List.nodup_cons.mp hnd).2
    rw [List.foldl_cons, ih hnd2 (addEntry acc w name)]
    by_cases hacc : acc.any (fun p => decide (p.1 = w)) = true
    · have hAE : addEntry acc w name
          = acc.map (fun p => if p.1 = w then (p.1, p.2 ++ [name]) else p) := by
        unfold addEntry
        rw [if_pos hacc]
      have h1 : (acc.map (fun p => if p.1 = w then (p.1, p.2 ++ [name]) else p)).map
            (bumpIf t name)
          = acc.map (bumpIf (w :: t) name) := by
        rw [List.map_map]
        apply List.map_congr_left
        intro p _
        show bumpIf t name (if p.1 = w then (p.1, p.2 ++ [name]) else p)
          = bumpIf (w :: t) name p
        by_cases hpw : p.1 = w
        · rw [if_pos hpw]
          unfold bumpIf
          rw [if_neg (by simpa [hpw] using hw), if_pos (by simp [hpw])]
        · rw [if_neg hpw]
          unfold bumpIf
          by_cases hpt : p.1 ∈ t
          · rw [if_pos hpt, if_pos (List.mem_cons_of_mem w hpt)]
          · rw [if_neg hpt, if_neg (by simp [hpw, hpt])]
      rw [hAE, h1]
      have h2 : t.filter (fun v =>
            !((acc.map (fun p => if p.1 = w then (p.1, p.2 ++ [name]) else p)).any
              (fun p => decide (p.1 = v))))
          = t.filter (fun v => !(acc.any (fun p => decide (p.1 = v)))) := by
        apply List.filter_congr
        intro v _
        rw [any_key_map _ (fun p => by by_cases h : p.1 = w <;> simp [h]) acc v]
      rw [h2, List.filter_cons, if_neg (by simp [hacc])]
    · have hAE : addEntry acc w name = acc ++ [(w, [name])] := by
        unfold addEntry
        rw [if_neg hacc]
      have hknot : ∀ p ∈ acc, ¬ p.1 = w := by
        intro p hp h
        exact hacc (List.any_eq_true.mpr ⟨p, hp, by simp [h]⟩)
      rw [hAE, List.map_append]
      have hb : [(w, [name])].map (bumpIf t name) = [(w, [name])] := by
        show [bumpIf t name (w, [name])] = [(w, [name])]
        unfold bumpIf
        rw [if_neg (by simpa using hw)]
      have h1 : acc.map (bumpIf t name) = acc.map (bumpIf (w :: t) name) := by
        apply List.map_congr_left
        intro p hp
        unfold bumpIf
        by_cases hpt : p.1 ∈ t
        · rw [if_pos hpt, if_pos (List.mem_cons_of_mem w hpt)]
        · rw [if_neg hpt, if_neg (by simp [hknot p hp, hpt])]
      have h2 : t.filter (fun v =>
            !((acc ++ [(w, [name])]).any (fun p => decide (p.1 = v))))
          = t.filter (fun v => !(acc.any (fun p => decide (p.1 = v)))) := by
        apply List.filter_congr
        intro v hv
        have hvw : ¬ w = v := fun h => hw (h ▸ hv)
        rw [List.any_append]
        have : [(w, [name])].any (fun p => decide (p.1 = v)) = false := by
          simp [hvw]
        rw [this, Bool.or_false]
      rw [hb, h1, h2, List.filter_cons, if_pos (by simp [hacc]), List.append_assoc]
      rfl

/-- The warnings/errors half of __summarize_logfiles as a whole: with each
run's grouped message list duplicate-free, the summary lists every message
observed in any run once, in order of first observation, keyed to the names
of exactly the runs exhibiting it, in run order. -/
theorem summarizeWarnErr_spec (proj : RunLog → List String) :
    ∀ data : List (String × RunLog),
    (∀ wr ∈ data, (proj wr.2).Nodup) →
    summarizeWarnErr data proj
      = (dedupFirst (data.flatMap (fun wr => proj wr.2))).map
          (fun m => (m, (data.filter (fun wr => decide (m ∈ proj wr.2))).map Prod.fst)) := by
  intro data
  induction data using List.reverseRecOn with
  | nil =>
    intro _
    rfl
  | append_singleton D wr ih =>
    intro h
    have hD := fun o ho => h o (List.mem_append_left _ ho)
    have hws : (proj wr.2).Nodup :=
      h wr (List.mem_append_right _ (List.mem_singleton_self wr))
    have hL : summarizeWarnErr (D ++ [wr]) proj
        = (proj wr.2).foldl (fun a w => addEntry a w wr.1) (summarizeWarnErr D proj) := by
      unfold summarizeWarnErr
      rw [List.foldl_append]
      rfl
    rw [hL, ih hD, foldl_addEntry wr.1 (proj wr.2) hws]
    have hM : dedupFirst ((D ++ [wr]).flatMap (fun o => proj o.2))
        = dedupFirst (D.flatMap (fun o => proj o.2))
          ++ (proj wr.2).filter
              (fun v => decide (v ∉ dedupFirst (D.flatMap (fun o => proj o.2)))) := by
      rw [List.flatMap_append]
      show (D.flatMap (fun o => proj o.2) ++ [wr].flatMap (fun o => proj o.2)).foldl _ []
        = _
      rw [List.foldl_append]
      have hsing : [wr].flatMap (fun o => proj o.2) = proj wr.2 := by simp
      rw [hsing]
      exact foldl_insert_nodup (proj wr.2) hws _
    rw [hM, List.map_append]
    congr 1
    · rw [List.map_map]
      apply List.map_congr_left
      intro m _
      show bumpIf (proj wr.2) wr.1
          (m, (D.filter (fun o => decide (m ∈ proj o.2))).map Prod.fst) = _
      have hfil : (D ++ [wr]).filter (fun o => decide (m ∈ proj o.2))
          = D.filter (fun o => decide (m ∈ proj o.2))
            ++ (if m ∈ proj wr.2 then [wr] else []) := by
        rw [List.filter_append]
        congr 1
        rw [List.filter_cons]
        by_cases hm : m ∈ proj wr.2
        · rw [if_pos (by simp [hm]), if_pos hm]
          rfl
        · rw [if_neg (by simp [hm]), if_neg hm]
          rfl
      rw [hfil, List.map_append]
      unfold bumpIf
      by_cases hm : m ∈ proj wr.2
      · rw [if_pos hm, if_pos hm]
        rfl
      · rw [if_neg hm, if_neg hm]
        simp
    · have hfil2 : (proj wr.2).filter
            (fun w => !((dedupFirst (D.flatMap (fun o => proj o.2))).map
              (fun m => (m, (D.filter (fun o => decide (m ∈ proj o.2))).map Prod.fst))).any
                (fun p => decide (p.1 = w)))
          = (proj wr.2).filter
              (fun v => decide (v ∉ dedupFirst (D.flatMap (fun o => proj o.2)))) := by
        apply List.filter_congr
        intro v _
        rw [any_key_of_map_pair
          (fun m => (m, (D.filter (fun o => decide (m ∈ proj o.2))).map Prod.fst))
          (fun m => rfl) _ v, decide_not]
      rw [hfil2]
      apply List.map_congr_left
      intro v hv
      rw [List.mem_filter] at hv
      obtain ⟨hvin, hvnot⟩ := hv
      have hvnotM : v ∉ dedupFirst (D.flatMap (fun o => proj o.2)) := by
        simpa using hvnot
      have hvnotD : ∀ o ∈ D, v ∉ proj o.2 := by
        intro o ho hvo
        apply hvnotM
        rw [show dedupFirst (D.flatMap (fun o => proj o.2))
            = (D.flatMap (fun o => proj o.2)).foldl
                (fun acc u => if u ∈ acc then acc else acc ++ [u]) [] from rfl]
        rw [mem_foldl_insert]
        exact Or.inr (List.mem_flatMap.mpr ⟨o, ho, hvo⟩)
      have hD0 : D.filter (fun o => decide (v ∈ proj o.2)) = [] := by
        rw [List.filter_eq_nil_iff]
        intro o ho
        simp [hvnotD o ho]
      show (v, [wr.1]) = (v, ((D ++ [wr]).filter (fun o => decide (v ∈ proj o.2))).map Prod.fst)
      rw [List.filter_append, hD0, List.nil_append, List.filter_cons,
        if_pos (by simp [hvin])]
      rfl

/-- Claim C9: with each run's grouped message list duplicate-free (as
__process_worker_logs produces it), the aggregated summary lists every
distinct warning/error message observed in any run exactly once (its keys
are duplicate-free and are exactly the observed messages in order of first
observation), each together with the names of exactly the runs exhibiting
it; its rendered entry collapses to an All Simulations notice precisely when
the exhibiting-run count equals the total run count, which happens exactly
when every run exhibits the message; and __process_worker_logs does produce
duplicate-free per-run message lists. -/
theorem log_summary_grouping (data : List (String × RunLog)) (proj : RunLog → List String)
    (hnd : ∀ wr ∈ data, (proj wr.2).Nodup) (fws : List FinishedWorker) :
    (summarizeWarnErr data proj
      = (dedupFirst (data.flatMap (fun wr => proj wr.2))).map
          (fun m => (m, (data.filter (fun wr => decide (m ∈ proj wr.2))).map Prod.fst)))
    ∧ ((summarizeWarnErr data proj).map Prod.fst).Nodup
    ∧ (∀ m sims, (m, sims) ∈ summarizeWarnErr data proj →
        ((if sims.length = data.length then SummaryEntry.allSims m sims.length
          else SummaryEntry.listed m sims)
            ∈ renderEntries data.length (summarizeWarnErr data proj))
        ∧ (sims.length = data.length ↔ ∀ wr ∈ data, m ∈ proj wr.2))
    ∧ (∀ wr ∈ processWorkerLogs fws, wr.2.simWarnings.Nodup ∧ wr.2.simErrors.Nodup) := by
  have hspec := summarizeWarnErr_spec proj data hnd
  have hMnd : (dedupFirst (data.flatMap (fun wr => proj wr.2))).Nodup :=
    nodup_foldl_insert _ [] List.nodup_nil
  refine ⟨hspec, ?_, ?_, ?_⟩
  · rw [hspec, List.map_map]
    have hcomp2 : (Prod.fst ∘ fun m =>
          (m, (data.filter (fun wr => decide (m ∈ proj wr.2))).map (Prod.fst)))
        = fun m : String => m := rfl
    rw [hcomp2]
    have hid : (dedupFirst (data.flatMap (fun wr => proj wr.2))).map (fun m => m)
        = dedupFirst (data.flatMap (fun wr => proj wr.2)) := List.map_id' _
    rw [hid]
    exact hMnd
  · intro m sims hmem
    constructor
    · exact List.mem_map_of_mem _ hmem
    · rw [hspec] at hmem
      obtain ⟨m2, hm2, heq⟩ := List.mem_map.mp hmem
      obtain ⟨rfl, rfl⟩ : m2 = m ∧
          (data.filter (fun wr => decide (m2 ∈ proj wr.2))).map Prod.fst = sims := by
        exact ⟨congrArg Prod.fst heq, congrArg Prod.snd heq⟩
      rw [List.length_map, List.filter_length_eq_length]
      constructor
      · intro hall wr hwr
        simpa using hall wr hwr
      · intro hall wr hwr
        simp [hall wr hwr]
  · intro wr hwr
    obtain ⟨fw, _, rfl⟩ := List.mem_map.mp hwr
    have hinj : Function.Injective List.asString := fun a b h => congrArg String.toList h
    constructor
    · exact List.Nodup.map hinj (nodup_foldl_insert _ [] List.nodup_nil)
    · exact List.Nodup.map hinj (nodup_foldl_insert _ [] List.nodup_nil)

/-- Witness for C9: two runs emitting the identical warning header are
grouped into the single entry naming both runs. -/
theorem log_summary_grouping_witness :
    summarizeWarnErr
      [ ("w1", { returnCode := 0, readError := Option.none, cpuTime := Option.none,
                 simWarnings := ["warn"], simErrors := [] }),
        ("w2", { returnCode := 0, readError := Option.none, cpuTime := Option.none,
                 simWarnings := ["warn"], simErrors := [] }) ]
      RunLog.simWarnings
      = [("warn", ["w1", "w2"])] := by
  have h := (log_summary_grouping
    [ ("w1", { returnCode := 0, readError := Option.none, cpuTime := Option.none,
               simWarnings := ["warn"], simErrors := [] }),
      ("w2", { returnCode := 0, readError := Option.none, cpuTime := Option.none,
               simWarnings := ["warn"], simErrors := [] }) ]
    RunLog.simWarnings (by decide) []).1
  rw [h]
  rfl

/-! ## Lemmas about the reindexing step -/

theorem length_flatMap_const {α β : Type} (l : List α) (f : α → List β) (c : Nat)
    (h : ∀ a ∈ l, (f a).length = c) :
    (l.flatMap f).length = l.length * c := by
  induction l with
  | nil => simp
  | cons a t ih =>
    rw [List.flatMap_cons, List.length_append, h a (List.mem_cons_self a t),
      ih (fun x hx => h x (List.mem_cons_of_mem a hx)), List.length_cons]
    ring

/-- The size of a from_product index is the product of the level sizes. -/
theorem listProd_length (ls : List (List Val)) :
    (listProd ls).length = (ls.map List.length).prod := by
  induction ls with
  | nil => rfl
  | cons lvl rest ih =>
    show (lvl.flatMap (fun v => (listProd rest).map (fun t => v :: t))).length = _
    rw [length_flatMap_const _ _ (listProd rest).length
        (fun v _ => List.length_map _ _), ih, List.map_cons, List.prod_cons]

/-- Claim C2: the reindexing step maps an indexed block onto the full cross
product of the sweep tuples with the cross product of the unique observed
values of every native independent level, sweep names prepended to the
native names; the resulting index is exactly that cross product (so the
block is rectangular, of size sweep count times the product of the unique
value counts), a combination present in the data keeps a row of the data,
and a combination absent from the data becomes an explicit missing (NaN)
row. The hypotheses scope the claim to the blocks the code meets: at least
one native level remains (from_product of an empty list raises) and the
concatenated index is duplicate-free (reindex raises on duplicate labels). -/
theorem reindex_cross_product {α : Type} (sweep : MIdx) (d : DFrame α)
    (hnn : d.names.filter (fun n => decide (n ∉ sweep.names)) ≠ [])
    (hdup : (d.rows.map Prod.fst).Nodup) :
    (reindexBlock sweep d).names
        = sweep.names ++ d.names.filter (fun n => decide (n ∉ sweep.names))
    ∧ (reindexBlock sweep d).rows.map Prod.fst
        = sweep.tuples.flatMap (fun a =>
            (listProd ((d.names.filter (fun n => decide (n ∉ sweep.names))).map
              (fun n => uniqueFirst (getLevelValues d n)))).map (fun b => a ++ b))
    ∧ (reindexBlock sweep d).rows.length
        = sweep.tuples.length
          * ((d.names.filter (fun n => decide (n ∉ sweep.names))).map
              (fun n => (uniqueFirst (getLevelValues d n)).length)).prod
    ∧ (∀ p ∈ (reindexBlock sweep d).rows,
        (p.2 = Option.none ↔ ∀ r ∈ d.rows, r.1 ≠ p.1)
        ∧ (∀ a, p.2 = some a → (p.1, a) ∈ d.rows)) := by
  have hrows : (reindexBlock sweep d).rows
      = (sweep.tuples.flatMap (fun a =>
          (listProd ((d.names.filter (fun n => decide (n ∉ sweep.names))).map
            (fun n => uniqueFirst (getLevelValues d n)))).map (fun b => a ++ b))).map
        (fun t => (t, lookupRow d t)) := rfl
  refine ⟨rfl, ?_, ?_, ?_⟩
  · rw [hrows, List.map_map]
    have hc : (Prod.fst ∘ fun t : List Val => (t, lookupRow d t)) = fun t => t := rfl
    rw [hc]
    exact List.map_id' _
  · rw [hrows, List.length_map]
    rw [length_flatMap_const _ _
      (listProd ((d.names.filter (fun n => decide (n ∉ sweep.names))).map
        (fun n => uniqueFirst (getLevelValues d n)))).length
      (fun a _ => List.length_map _ _)]
    rw [listProd_length, List.map_map]
    rfl
  · intro p hp
    rw [hrows] at hp
    obtain ⟨t, ht, rfl⟩ := List.mem_map.mp hp
    constructor
    · show lookupRow d t = Option.none ↔ ∀ r ∈ d.rows, r.1 ≠ t
      unfold lookupRow
      constructor
      · intro h r hr
        have hfn : d.rows.find? (fun r => decide (r.1 = t)) = Option.none := by
          cases hfind : d.rows.find? (fun r => decide (r.1 = t)) with
          | none => rfl
          | some r2 =>
            rw [hfind] at h
            simp at h
        have := List.find?_eq_none.mp hfn r hr
        simpa using this
      · intro h
        rw [List.find?_eq_none.mpr (fun r hr => by simpa using h r hr)]
        rfl
    · intro a ha
      show (t, a) ∈ d.rows
      unfold lookupRow at ha
      cases hfind : d.rows.find? (fun r => decide (r.1 = t)) with
      | none =>
        rw [hfind] at ha
        simp at ha
      | some r2 =>
        rw [hfind] at ha
        have hr2 : r2 ∈ d.rows := List.mem_of_find?_eq_some hfind
        have hpred : r2.1 = t := by simpa using List.find?_some hfind
        have ha2 : r2.2 = a := by simpa using ha
        have hr2eq : r2 = (t, a) := Prod.ext hpred ha2
        rwa [hr2eq] at hr2

/-- Witness for C2: a two-tuple sweep over a block with one native level
with two observed values, half of whose combinations are absent from the
data, reindexes onto the full four-row cross product. -/
theorem reindex_cross_product_witness :
    (reindexBlock { names := ["s"], tuples := [[Val.i 1], [Val.i 2]] }
        { names := ["s", "f"],
          rows := [([Val.i 1, Val.i 10], (5 : Int)), ([Val.i 2, Val.i 20], 7)] }).rows.map
        Prod.fst
      = [[Val.i 1, Val.i 10], [Val.i 1, Val.i 20],
         [Val.i 2, Val.i 10], [Val.i 2, Val.i 20]] := by
  have h := (reindex_cross_product { names := ["s"], tuples := [[Val.i 1], [Val.i 2]] }
    { names := ["s", "f"],
      rows := [([Val.i 1, Val.i 10], (5 : Int)), ([Val.i 2, Val.i 20], 7)] }
    (by decide) (by decide)).2.1
  rw [h]
  rfl

end MAS
